import Mathlib

/-!
Verification development for the llms.txt-generator crawl/generate core.

The Python sources under `backend/` are shallowly embedded: strings are
`List Char`, machine floats that only ever hold small decimals (crawl
delays) are `ℚ`, Python `int` is `ℤ`, network traffic is an explicit
oracle passed to the functions that fetch.  The URL helpers from
`urllib.parse` (CPython 3.11.6) and the fragment of `re` exercised by the
code are embedded as well, since the behaviour of `normalize_url`,
`parse_robots` and friends is determined by them.  Inputs on which
CPython's `urlsplit` raises `ValueError` (mismatched `[`/`]` in the
authority, invalid bracketed hosts, non-ASCII netloc edge cases checked by
`_checknetloc`) are outside the model: the embedded parser is total and
parses them without error.  Character-level operations (`lower`, `strip`,
`isalnum`, `splitlines`, `title`) are modelled on the ASCII fragment.
-/

abbrev Str := List Char

def str (s : String) : Str := s.toList

/-! ## Character classes (ASCII fragment of the Python predicates) -/

def isAsciiUpper (c : Char) : Bool := 'A' ≤ c && c ≤ 'Z'

def isAsciiLower (c : Char) : Bool := 'a' ≤ c && c ≤ 'z'

def isAsciiAlpha (c : Char) : Bool := isAsciiUpper c || isAsciiLower c

def isAsciiDigit (c : Char) : Bool := '0' ≤ c && c ≤ '9'

def isAsciiAlnum (c : Char) : Bool := isAsciiAlpha c || isAsciiDigit c

/-- Python `str.strip()` whitespace set, ASCII fragment. -/
def isPySpace (c : Char) : Bool :=
  c = ' ' || c = '\t' || c = '\n' || c = '\x0d' || c = '\x0b' || c = '\x0c'

def pyLower (s : Str) : Str := s.map Char.toLower

/-! ## String primitives mirroring the Python `str` methods used -/

/-- Python `s.strip()` (ASCII whitespace). -/
def pyStrip (s : Str) : Str :=
  ((s.dropWhile isPySpace).reverse.dropWhile isPySpace).reverse

/-- Python `s.rstrip(cs)`: remove every trailing char belonging to `cs`. -/
def rstripSet (cs : List Char) (s : Str) : Str :=
  (s.reverse.dropWhile (fun c => cs.contains c)).reverse

/-- Python `s.rstrip()` (ASCII whitespace). -/
def pyRStripWS (s : Str) : Str := (s.reverse.dropWhile isPySpace).reverse

/-- Python `s.lstrip(cs)`. -/
def lstripSet (cs : List Char) (s : Str) : Str :=
  s.dropWhile (fun c => cs.contains c)

/-- Index of the first occurrence of `c` (Python `s.find(c)` when `some`). -/
def firstIdx (c : Char) : Str → Option Nat
  | [] => none
  | d :: ds => if d = c then some 0 else (firstIdx c ds).map (· + 1)

/-- Python `s.find(c, start)` restricted to found-or-none. -/
def firstIdxFrom (c : Char) (start : Nat) (s : Str) : Option Nat :=
  (firstIdx c (s.drop start)).map (· + start)

/-- Python `s.rfind(c)` when the char occurs. -/
def lastIdx (c : Char) (s : Str) : Option Nat :=
  match firstIdx c s.reverse with
  | none => none
  | some i => some (s.length - 1 - i)

/-- The part of `s` strictly before the first `c` (all of `s` if absent). -/
def takeBefore (c : Char) (s : Str) : Str := s.takeWhile (· ≠ c)

/-- The part of `s` strictly after the first `c` (`[]` if absent):
Python `s.split(c, 1)[1]` when `c` occurs. -/
def dropThrough (c : Char) (s : Str) : Str := (s.dropWhile (· ≠ c)).drop 1

/-- Python `s.split(c)`: keeps empty pieces. -/
def splitOnChar (c : Char) : Str → List Str
  | [] => [[]]
  | d :: ds =>
    if d = c then [] :: splitOnChar c ds
    else
      match splitOnChar c ds with
      | [] => [[d]]
      | x :: xs => (d :: x) :: xs

/-- Python `s.split()` (split on whitespace runs, dropping empties). -/
def pySplitWS (s : Str) : List Str :=
  ((splitOnChar ' ' (s.map (fun c => if isPySpace c then ' ' else c))).filter
    (fun p => p ≠ []))

/-- Normalise the line terminators handled by Python `str.splitlines` to
`'\n'` (`"\r\n"` counts as a single terminator). -/
def normNewlines : Str → Str
  | [] => []
  | '\x0d' :: '\n' :: rest => '\n' :: normNewlines rest
  | c :: rest =>
    (if c = '\x0d' || c = '\x0b' || c = '\x0c' || c = '\x1c' || c = '\x1d' ||
        c = '\x1e' || c = '\x85' then '\n' else c) :: normNewlines rest

/-- Python `s.splitlines()`. -/
def splitlinesPy (s : Str) : List Str :=
  if s = [] then []
  else
    let t := normNewlines s
    let parts := splitOnChar '\n' t
    if t.getLast? = some '\n' then parts.dropLast else parts

/-- Replace each occurrence of the two-character pattern `p1 p2` by `rep`
(Python `s.replace(p1+p2, rep)`; matches do not overlap). -/
def replace2 (p1 p2 : Char) (rep : Str) : Str → Str
  | [] => []
  | [c] => [c]
  | a :: b :: rest =>
    if a = p1 && b = p2 then rep ++ replace2 p1 p2 rep rest
    else a :: replace2 p1 p2 rep (b :: rest)

/-- Python `s.replace(c, rep)` for a single-character pattern. -/
def replaceChar (c : Char) (rep : Str) (s : Str) : Str :=
  s.flatMap (fun d => if d = c then rep else [d])

/-- Python `str.title()` on the ASCII fragment: a letter that follows a
non-letter is upper-cased, a letter that follows a letter is lower-cased. -/
def pyTitleAux : Bool → Str → Str
  | _, [] => []
  | prevAlpha, c :: rest =>
    (if isAsciiAlpha c then (if prevAlpha then c.toLower else c.toUpper) else c)
      :: pyTitleAux (isAsciiAlpha c) rest

def pyTitle (s : Str) : Str := pyTitleAux false s

/-! ## Numbers: `float(...)` on the plain-decimal fragment, as `ℚ` -/

def digitsToNat (s : Str) : Nat :=
  s.foldl (fun n c => n * 10 + (c.toNat - '0'.toNat)) 0

/-- Model of Python `float(s)` on finite decimal literals
(optional sign, digits, optional fraction, optional exponent);
`none` where `float` raises `ValueError` (and on the `inf`/`nan`/underscore
forms, which the repository never feeds it). -/
def floatOfStr (s0 : Str) : Option ℚ :=
  let s := pyStrip s0
  let sgn : Int := if s.take 1 = ['-'] then -1 else 1
  let s := if s.take 1 = ['-'] || s.take 1 = ['+'] then s.drop 1 else s
  let ip := s.takeWhile isAsciiDigit
  let s1 := s.dropWhile isAsciiDigit
  let fp := if s1.take 1 = ['.'] then (s1.drop 1).takeWhile isAsciiDigit else []
  let s2 := if s1.take 1 = ['.'] then (s1.drop 1).dropWhile isAsciiDigit else s1
  if ip = [] && fp = [] then none
  else
    let num : Int := sgn * ((digitsToNat ip * 10 ^ fp.length + digitsToNat fp : Nat) : Int)
    let den : Nat := 10 ^ fp.length
    match s2 with
    | [] => some (mkRat num den)
    | e :: rest =>
      if e = 'e' || e = 'E' then
        let negExp := rest.take 1 = ['-']
        let rest := if rest.take 1 = ['-'] || rest.take 1 = ['+'] then rest.drop 1 else rest
        let ed := rest.takeWhile isAsciiDigit
        if ed = [] || rest.dropWhile isAsciiDigit ≠ [] then none
        else if negExp then some (mkRat num (den * 10 ^ digitsToNat ed))
        else some (mkRat (num * ((10 ^ digitsToNat ed : Nat) : Int)) den)
      else none

/-! ## `urllib.parse` model (CPython 3.11.6) -/

structure SplitResult where
  scheme : Str
  netloc : Str
  path : Str
  query : Str
  fragment : Str
deriving Repr, DecidableEq

structure ParseResult where
  scheme : Str
  netloc : Str
  path : Str
  params : Str
  query : Str
  fragment : Str
deriving Repr, DecidableEq

def usesRelative : List Str :=
  [str "", str "ftp", str "http", str "gopher", str "nntp", str "imap",
   str "wais", str "file", str "https", str "shttp", str "mms",
   str "prospero", str "rtsp", str "rtsps", str "rtspu", str "sftp",
   str "svn", str "svn+ssh", str "ws", str "wss"]

def usesNetloc : List Str :=
  [str "", str "ftp", str "http", str "gopher", str "nntp", str "telnet",
   str "imap", str "wais", str "file", str "mms", str "https", str "shttp",
   str "snews", str "prospero", str "rtsp", str "rtsps", str "rtspu",
   str "rsync", str "svn", str "svn+ssh", str "sftp", str "nfs", str "git",
   str "git+ssh", str "ws", str "wss"]

def usesParams : List Str :=
  [str "", str "ftp", str "hdl", str "prospero", str "http", str "imap",
   str "https", str "shttp", str "rtsp", str "rtsps", str "rtspu",
   str "sip", str "sips", str "mms", str "sftp", str "tel"]

def isSchemeChar (c : Char) : Bool :=
  isAsciiAlnum c || c = '+' || c = '-' || c = '.'

/-- `_UNSAFE_URL_BYTES_TO_REMOVE`: tab, CR, LF are deleted from the URL. -/
def removeUnsafe (s : Str) : Str :=
  s.filter (fun c => !(c = '\t' || c = '\x0d' || c = '\n'))

/-- `_WHATWG_C0_CONTROL_OR_SPACE` membership. -/
def isC0OrSpace (c : Char) : Bool := c ≤ ' '

/-- `url.lstrip(_WHATWG_C0_CONTROL_OR_SPACE)`. -/
def lstripC0 (s : Str) : Str := s.dropWhile isC0OrSpace

/-- `_splitnetloc(url, 2)`: the authority runs up to the first `/`, `?`
or `#` at or after index 2. -/
def isNetlocStop (c : Char) : Bool := c = '/' || c = '?' || c = '#'

/-- CPython 3.11 `urlsplit(url, scheme)` (total model; the `ValueError`
branches for bad bracketed hosts are outside the model). -/
def urlsplit (url0 : Str) (dscheme : Str) : SplitResult :=
  let url := removeUnsafe (lstripC0 url0)
  let pre := url.takeWhile (· ≠ ':')
  let hasColon := url.contains ':'
  let schemeOk :=
    hasColon && pre ≠ [] &&
      (match url with
       | c :: _ => isAsciiAlpha c
       | [] => false) &&
      (pre.drop 1).all isSchemeChar
  let scheme := if schemeOk then pyLower pre else dscheme
  let url := if schemeOk then url.drop (pre.length + 1) else url
  let netloc := if url.take 2 = str "//" then (url.drop 2).takeWhile (fun c => !isNetlocStop c) else []
  let url := if url.take 2 = str "//" then (url.drop 2).dropWhile (fun c => !isNetlocStop c) else url
  let fragment := if url.contains '#' then dropThrough '#' url else []
  let url := if url.contains '#' then takeBefore '#' url else url
  let query := if url.contains '?' then dropThrough '?' url else []
  let url := if url.contains '?' then takeBefore '?' url else url
  ⟨scheme, netloc, url, query, fragment⟩

/-- CPython `_splitparams`. -/
def splitparams (rest : Str) : Str × Str :=
  if rest.contains '/' then
    match firstIdxFrom ';' ((lastIdx '/' rest).getD 0) rest with
    | none => (rest, [])
    | some i => (rest.take i, rest.drop (i + 1))
  else
    match firstIdx ';' rest with
    | none => (rest, [])
    | some i => (rest.take i, rest.drop (i + 1))

/-- CPython `urlparse(url, scheme)`. -/
def urlparse (url : Str) (dscheme : Str) : ParseResult :=
  let sr := urlsplit url dscheme
  let pp :=
    if usesParams.contains sr.scheme && sr.path.contains ';' then splitparams sr.path
    else (sr.path, [])
  ⟨sr.scheme, sr.netloc, pp.1, pp.2, sr.query, sr.fragment⟩

/-- CPython 3.11 `urlunsplit`. -/
def urlunsplit (scheme netloc url query fragment : Str) : Str :=
  let url :=
    if netloc ≠ [] || (scheme ≠ [] && usesNetloc.contains scheme && url.take 2 ≠ str "//") then
      let url := if url ≠ [] && url.take 1 ≠ str "/" then '/' :: url else url
      str "//" ++ netloc ++ url
    else url
  let url := if scheme ≠ [] then scheme ++ ':' :: url else url
  let url := if query ≠ [] then url ++ '?' :: query else url
  if fragment ≠ [] then url ++ '#' :: fragment else url

/-- CPython `urlunparse`. -/
def urlunparse (p : ParseResult) : Str :=
  urlunsplit p.scheme p.netloc
    (if p.params ≠ [] then p.path ++ ';' :: p.params else p.path) p.query p.fragment

/-- `segments[1:-1] = filter(None, segments[1:-1])` in `urljoin`. -/
def filterMiddle (l : List Str) : List Str :=
  match l with
  | [] => []
  | [a] => [a]
  | a :: b :: rest =>
    a :: (((b :: rest).dropLast.filter (fun s => s ≠ [])) ++ (b :: rest).drop rest.length)

/-- CPython 3.11 `urljoin`. -/
def urljoin (base url : Str) : Str :=
  if base = [] then url
  else if url = [] then base
  else
    let b := urlparse base []
    let t := urlparse url b.scheme
    if t.scheme ≠ b.scheme || !usesRelative.contains t.scheme then url
    else if usesNetloc.contains t.scheme && t.netloc ≠ [] then urlunparse t
    else
      let netloc := if usesNetloc.contains t.scheme then b.netloc else t.netloc
      if t.path = [] && t.params = [] then
        urlunparse ⟨t.scheme, netloc, b.path, b.params,
          (if t.query = [] then b.query else t.query), t.fragment⟩
      else
        let baseParts := splitOnChar '/' b.path
        let baseParts := if baseParts.getLast? ≠ some [] then baseParts.dropLast else baseParts
        let segments :=
          if t.path.take 1 = str "/" then splitOnChar '/' t.path
          else filterMiddle (baseParts ++ splitOnChar '/' t.path)
        let resolved := segments.foldl
          (fun acc seg =>
            if seg = str ".." then acc.dropLast
            else if seg = str "." then acc
            else acc ++ [seg]) ([] : List Str)
        let resolved :=
          if segments.getLast? = some (str ".") || segments.getLast? = some (str "..") then
            resolved ++ [[]]
          else resolved
        let joined := List.intercalate (str "/") resolved
        urlunparse ⟨t.scheme, netloc, (if joined = [] then str "/" else joined),
          t.params, t.query, t.fragment⟩

/-! ## `backend/crawler/url_utils.py` -/

/-- The port-stripping step of `normalize_url` (lines 9-15). -/
def stripDefaultPort (scheme netloc : Str) : Str :=
  if netloc ≠ [] && netloc.contains ':' &&
      (List.isSuffixOf (str ":80") netloc || List.isSuffixOf (str ":443") netloc) then
    let i := (lastIdx ':' netloc).getD 0
    let host := netloc.take i
    let port := netloc.drop (i + 1)
    if (scheme = str "https" && port = str "443") ||
       (scheme = str "http" && port = str "80") then host
    else netloc
  else netloc

/-- Lines 8-19 of `normalize_url` (after the optional `urljoin`). -/
def normalizeJoined (url : Str) : Str :=
  let parsed := urlparse url []
  let netloc := stripDefaultPort parsed.scheme parsed.netloc
  let normalized := urlunparse
    ⟨(if parsed.scheme = [] then str "https" else parsed.scheme), netloc,
     (if parsed.path = [] then str "/" else parsed.path), parsed.params, parsed.query, []⟩
  let r := rstripSet ['/'] normalized
  if r = [] then normalized else r

/-- `normalize_url(url, base=None)` from `url_utils.py`. -/
def normalize_url (url0 : Str) (base : Option Str) : Str :=
  normalizeJoined
    (match base with
     | some b => if b ≠ [] then urljoin b url0 else url0
     | none => url0)

/-- `get_origin(url)` from `url_utils.py`. -/
def get_origin (url : Str) : Str :=
  let parsed := urlparse url []
  (if parsed.scheme = [] then str "https" else parsed.scheme) ++ str "://" ++ parsed.netloc

/-- `is_same_origin(url, base_origin)` from `url_utils.py`. -/
def is_same_origin (url : Str) (baseOrigin : Str) : Bool :=
  get_origin url = baseOrigin

/-- `get_robots_url(base_url)` from `url_utils.py`. -/
def get_robots_url (baseUrl : Str) : Str :=
  urljoin (get_origin baseUrl ++ str "/") (str "robots.txt")

/-- `get_sitemap_url(base_url)` from `url_utils.py`. -/
def get_sitemap_url (baseUrl : Str) : Str :=
  urljoin (get_origin baseUrl ++ str "/") (str "sitemap.xml")

/-! ## `backend/crawler/robots.py` -/

def DEFAULT_CRAWL_DELAY : ℚ := mkRat 1 2

/-- The characters escaped by CPython `re.escape` (`re._special_chars_map`). -/
def reSpecial (c : Char) : Bool :=
  ['(', ')', '[', ']', '\x7b', '\x7d', '?', '*', '+', '-', '|', '^', '$',
   '\\', '.', '&', '~', '#', ' ', '\t', '\n', '\x0d', '\x0b', '\x0c'].contains c

def reEscape (s : Str) : Str :=
  s.flatMap (fun c => if reSpecial c then ['\\', c] else [c])

/-- `re.escape(path).replace("\\*", ".*")` from `parse_robots`. -/
def compileDisallow (path : Str) : Str :=
  replace2 '\\' '*' (str ".*") (reEscape path)

/-- Tokens of the regex fragment emitted by `compileDisallow`:
escaped literals and the wildcard `.*` (a lone `.` is any-char). -/
inductive RTok where
  | lit : Char → RTok
  | anyChar : RTok
  | star : RTok
deriving Repr, DecidableEq

def tokenizePattern : Str → List RTok
  | [] => []
  | '\\' :: c :: rest => .lit c :: tokenizePattern rest
  | ['\\'] => [.lit '\\']
  | '.' :: '*' :: rest => .star :: tokenizePattern rest
  | '.' :: rest => .anyChar :: tokenizePattern rest
  | c :: rest => .lit c :: tokenizePattern rest

def reMatchTok : Nat → List RTok → Str → Bool
  | 0, _, _ => false
  | _ + 1, [], _ => true
  | _ + 1, .lit _ :: _, [] => false
  | fuel + 1, .lit c :: ts, d :: ds => d = c && reMatchTok fuel ts ds
  | _ + 1, .anyChar :: _, [] => false
  | fuel + 1, .anyChar :: ts, d :: ds => d ≠ '\n' && reMatchTok fuel ts ds
  | fuel + 1, .star :: ts, s =>
    reMatchTok fuel ts s ||
      (match s with
       | [] => false
       | _ :: ds => reMatchTok fuel (.star :: ts) ds)

/-- `re.match(pattern, s)` as a Boolean, on the pattern fragment produced
by `compileDisallow` (anchored at the start, prefix match suffices). -/
def reMatch (pattern s : Str) : Bool :=
  let toks := tokenizePattern pattern
  reMatchTok ((toks.length + 1) * (s.length + 1) + 1) toks s

/-- `is_path_allowed(path, disallowed_patterns)` from `robots.py`. -/
def is_path_allowed (path0 : Str) (patterns : List Str) : Bool :=
  let path := if path0 = [] then str "/" else path0
  let path := if path.take 1 ≠ str "/" then '/' :: path else path
  patterns.all (fun p => !reMatch p path)

structure RobotsState where
  disallowed : List Str
  crawl_delay : ℚ
  currentAgents : Option (List Str)
  blockDisallowed : List Str
  blockDelay : Option ℚ
  foundStar : Bool
deriving Repr, DecidableEq

def initRobotsState : RobotsState := ⟨[], 0, none, [], none, false⟩

/-- `flush_block` from `parse_robots`. -/
def flushBlock (st : RobotsState) : RobotsState :=
  let honored :=
    (match st.currentAgents with
     | some ags => ags ≠ [] && ags.contains (str "*")
     | none => false) && !st.foundStar
  { disallowed := if honored then st.blockDisallowed else st.disallowed,
    crawl_delay :=
      if honored then
        (match st.blockDelay with
         | some d => d
         | none => st.crawl_delay)
      else st.crawl_delay,
    currentAgents := st.currentAgents,
    blockDisallowed := [],
    blockDelay := none,
    foundStar := st.foundStar || honored }

/-- `line.split("#", 1)[0].strip()` in `parse_robots`. -/
def cleanLine (l : Str) : Str := pyStrip (takeBefore '#' l)

/-- One iteration of the line loop in `parse_robots`. -/
def robotsLine (st : RobotsState) (line0 : Str) : RobotsState :=
  let line := cleanLine line0
  if line = [] then st
  else if List.isPrefixOf (str "user-agent:") (pyLower line) then
    let st := flushBlock st
    { st with currentAgents := some [pyLower (pyStrip (dropThrough ':' line))] }
  else
    match st.currentAgents with
    | none => st
    | some _ =>
      let low := pyLower line
      if List.isPrefixOf (str "disallow:") low then
        let path := pyStrip (dropThrough ':' line)
        if path ≠ [] then
          { st with blockDisallowed := st.blockDisallowed ++ [compileDisallow path] }
        else st
      else if List.isPrefixOf (str "crawl-delay:") low then
        match pySplitWS (pyStrip (dropThrough ':' line)) with
        | [] => st
        | v :: _ =>
          match floatOfStr v with
          | some q => { st with blockDelay := some q }
          | none => st
      else st

/-- `parse_robots(robots_txt)` from `robots.py`. -/
def parse_robots (txt : Str) : List Str × ℚ :=
  let st := flushBlock ((splitlinesPy txt).foldl robotsLine initRobotsState)
  (st.disallowed, st.crawl_delay)

/-- Text fetch oracle: `none` models a raised exception,
`some (status, body)` a response. -/
abbrev TextWeb := Str → Option (Int × Str)

/-- `fetch_robots_txt(site_origin)` from `robots.py`. -/
def fetch_robots_txt (web : TextWeb) (siteOrigin : Str) : Str :=
  match web (get_robots_url siteOrigin) with
  | some (status, body) => if status = 200 then body else []
  | none => []

/-- `get_robots_policy(site_origin)` from `robots.py`. -/
def get_robots_policy (web : TextWeb) (siteOrigin : Str) : List Str × ℚ :=
  let dc := parse_robots (fetch_robots_txt web siteOrigin)
  (dc.1, if dc.2 ≤ 0 then DEFAULT_CRAWL_DELAY else dc.2)

/-! ## `backend/crawler/sitemap.py` -/

/-- Abstraction of a parsed `ElementTree` sitemap document: the text of the
elements returned by the four `findall` queries (namespaced and plain), in
document order; `none` is an element without text. -/
structure XmlDoc where
  sitemapLocsNs : List (Option Str)
  sitemapLocsPlain : List (Option Str)
  urlLocsNs : List (Option Str)
  urlLocsPlain : List (Option Str)
deriving Repr, DecidableEq

/-- XML fetch oracle: `none` = network error; `some (status, none)` = body
that fails to parse; `some (status, some doc)` = parsed document. -/
abbrev XmlWeb := Str → Option (Int × Option XmlDoc)

/-- `root.findall(".//sm:sitemap/sm:loc", NS)` with the no-namespace
fallback. -/
def xmlSitemapLocs (d : XmlDoc) : List (Option Str) :=
  if d.sitemapLocsNs ≠ [] then d.sitemapLocsNs else d.sitemapLocsPlain

/-- `root.findall(".//sm:url/sm:loc", NS)` with the no-namespace fallback. -/
def xmlUrlLocs (d : XmlDoc) : List (Option Str) :=
  if d.urlLocsNs ≠ [] then d.urlLocsNs else d.urlLocsPlain

def locText (o : Option Str) : Str :=
  match o with
  | some t => t
  | none => []

/-- The result-accumulating loop of `_urls_from_sitemap_xml`. -/
def collectSitemapUrls (siteOrigin : Str) (maxUrls : Int) :
    List (Option Str) → List Str → List Str
  | [], res => res
  | loc :: rest, res =>
    if locText loc ≠ [] then
      let u := normalize_url (pyStrip (locText loc)) none
      if is_same_origin u siteOrigin && !res.contains u then
        let res' := res ++ [u]
        if (res'.length : Int) ≥ maxUrls then res'
        else collectSitemapUrls siteOrigin maxUrls rest res'
      else collectSitemapUrls siteOrigin maxUrls rest res
    else collectSitemapUrls siteOrigin maxUrls rest res

/-- The `root is None` branch of `_urls_from_sitemap_xml`: fetch and parse
`source_url` unless a parsed document was passed in; `none` collapses the
network-error, non-200 and parse-error cases, all of which return `[]`. -/
def sitemapFetchDoc (web : XmlWeb) (sourceUrl : Str) (root : Option XmlDoc) :
    Option XmlDoc :=
  match root with
  | some r => some r
  | none =>
    match web sourceUrl with
    | some (status, some r) => if status = 200 then some r else none
    | _ => none

/-- `_urls_from_sitemap_xml(source_url, site_origin, timeout, max_urls, root)`. -/
def urlsFromSitemapXml (web : XmlWeb) (sourceUrl siteOrigin : Str) (maxUrls : Int)
    (root : Option XmlDoc) : List Str :=
  match sitemapFetchDoc web sourceUrl root with
  | none => []
  | some r => collectSitemapUrls siteOrigin maxUrls (xmlUrlLocs r) []

/-- `fetch_sitemap_urls(site_origin, timeout, max_urls)` from `sitemap.py`. -/
def fetch_sitemap_urls (web : XmlWeb) (siteOrigin : Str) (maxUrls : Int) : List Str :=
  let url := get_sitemap_url siteOrigin
  match web url with
  | none => []
  | some (status, parsed) =>
    if status ≠ 200 then []
    else
      match parsed with
      | none => []
      | some root =>
        match xmlSitemapLocs root with
        | firstLoc :: _ =>
          if locText firstLoc ≠ [] then
            urlsFromSitemapXml web (pyStrip (locText firstLoc)) siteOrigin maxUrls none
          else urlsFromSitemapXml web url siteOrigin maxUrls (some root)
        | [] => urlsFromSitemapXml web url siteOrigin maxUrls (some root)

/-! ## `backend/crawler/crawler.py` -/

structure PageInfo where
  url : Str
  title : Str
  description : Str
deriving Repr, DecidableEq

structure CrawlOptions where
  max_pages : Int := 10
  timeout : Int := 10
  crawl_delay : ℚ := mkRat 1 2
  respect_robots : Bool := true
  use_sitemap : Bool := true
  sitemap_max_urls : Int := 500
deriving Repr, DecidableEq

/-- Abstraction of a fetched HTML body as seen through BeautifulSoup: the
first `<title>` string, the two description meta contents, and the anchor
`href` values in document order. -/
structure Html where
  title : Option Str
  metaDesc : Option Str
  ogDesc : Option Str
  anchors : List Str
deriving Repr, DecidableEq

structure PageResp where
  status : Int
  finalUrl : Str
  body : Html
deriving Repr, DecidableEq

/-- The network as one crawl sees it: page fetches of the visit loop, the
robots.txt fetch, and the sitemap fetches; `none` models an exception. -/
structure Web where
  pages : Str → Option PageResp
  robots : TextWeb
  xml : XmlWeb

/-- `_extract_metadata(html, url)` from `crawler.py`. -/
def _extract_metadata (h : Html) (url : Str) : PageInfo :=
  let title0 :=
    match h.title with
    | some t => if t ≠ [] then pyStrip t else []
    | none => []
  let d1 :=
    match h.metaDesc with
    | some c => if c ≠ [] then pyStrip c else []
    | none => []
  let desc :=
    if d1 = [] then
      match h.ogDesc with
      | some c => if c ≠ [] then pyStrip c else []
      | none => []
    else d1
  ⟨url, (if title0 = [] then url else title0), desc⟩

def skipHref (href : Str) : Bool :=
  href = [] || List.isPrefixOf (str "#") href || List.isPrefixOf (str "mailto:") href ||
    List.isPrefixOf (str "tel:") href || List.isPrefixOf (str "javascript:") href

/-- `_extract_links(html, base_url, same_origin)` from `crawler.py`. -/
def _extract_links (h : Html) (baseUrl : Str) (sameOrigin : Str) : List Str :=
  h.anchors.foldl
    (fun (acc : List Str) a =>
      let href := pyStrip a
      if skipHref href then acc
      else
        let u := normalize_url href (some baseUrl)
        if is_same_origin u sameOrigin && !acc.contains u then acc ++ [u] else acc)
    []

structure CrawlState where
  toVisit : List Str
  visited : List Str
  results : List PageInfo
  fetchLog : List Str
  sleepLog : List ℚ
deriving Repr, DecidableEq

/-- `path_allowed(url)`, the closure in `crawl_site`. -/
def crawlPathAllowed (patterns : List Str) (url : Str) : Bool :=
  let p := (urlparse url []).path
  is_path_allowed (if p = [] then str "/" else p) patterns

/-- The `while to_visit and len(results) < opts.max_pages` loop of
`crawl_site`, with fuel; the fetch log records each URL passed to
`requests.get`, the sleep log each executed `time.sleep`. -/
def crawlStepLoop (web : Web) (opts : CrawlOptions) (patterns : List Str) (delay : ℚ)
    (origin : Str) : Nat → CrawlState → CrawlState
  | 0, s => s
  | fuel + 1, s =>
    match s.toVisit with
    | [] => s
    | url :: rest =>
      if ¬ ((s.results.length : Int) < opts.max_pages) then s
      else if s.visited.contains url then
        crawlStepLoop web opts patterns delay origin fuel { s with toVisit := rest }
      else if !crawlPathAllowed patterns url then
        crawlStepLoop web opts patterns delay origin fuel { s with toVisit := rest }
      else
        let s1 : CrawlState :=
          { s with toVisit := rest, visited := url :: s.visited,
                   fetchLog := s.fetchLog ++ [url] }
        match web.pages url with
        | none => crawlStepLoop web opts patterns delay origin fuel s1
        | some resp =>
          if resp.status ≠ 200 then crawlStepLoop web opts patterns delay origin fuel s1
          else
            let finalUrl := normalize_url resp.finalUrl none
            let visited2 := if finalUrl ≠ url then finalUrl :: s1.visited else s1.visited
            let info := _extract_metadata resp.body finalUrl
            let links := _extract_links resp.body finalUrl origin
            let toVisit2 := links.foldl
              (fun tv link =>
                if !visited2.contains link && !tv.contains link &&
                    crawlPathAllowed patterns link then tv ++ [link]
                else tv)
              rest
            let sleepLog2 := if delay > 0 then s1.sleepLog ++ [delay] else s1.sleepLog
            crawlStepLoop web opts patterns delay origin fuel
              ⟨toVisit2, visited2, s1.results ++ [info], s1.fetchLog, sleepLog2⟩

/-- Lines 80-85 of `crawl_site`: the robots policy and the effective
delay (`delay = opts.crawl_delay`, replaced by the robots delay when the
latter is positive). -/
def crawlEffectivePolicy (web : Web) (opts : CrawlOptions) (origin : Str) :
    List Str × ℚ :=
  if opts.respect_robots then
    let pr := get_robots_policy web.robots origin
    (pr.1, if pr.2 > 0 then pr.2 else opts.crawl_delay)
  else ([], opts.crawl_delay)

/-- Lines 91-101 of `crawl_site`: the seeded frontier. -/
def crawlSeed (web : Web) (opts : CrawlOptions) (origin : Str) (patterns : List Str)
    (baseUrl : Str) : List Str :=
  let toVisit :=
    if opts.use_sitemap then
      (fetch_sitemap_urls web.xml origin opts.sitemap_max_urls).filter
        (crawlPathAllowed patterns)
    else []
  if toVisit = [] then [baseUrl] else toVisit

/-- `crawl_site(base_url, options)` from `crawler.py`, returning the whole
instrumented final state; `fuel` bounds the number of loop iterations. -/
def crawl_run (web : Web) (fuel : Nat) (baseUrl0 : Str) (opts : CrawlOptions) :
    CrawlState :=
  let baseUrl := normalize_url baseUrl0 none
  let origin := get_origin baseUrl
  let pd := crawlEffectivePolicy web opts origin
  let seed := crawlSeed web opts origin pd.1 baseUrl
  crawlStepLoop web opts pd.1 pd.2 origin fuel ⟨seed, [], [], [], []⟩

/-- The return value of `crawl_site`. -/
def crawl_site (web : Web) (fuel : Nat) (baseUrl : Str) (opts : CrawlOptions) :
    List PageInfo :=
  (crawl_run web fuel baseUrl opts).results

/-! ## `backend/generator/generator.py` -/

structure GeneratorOptions where
  site_name : Option Str := none
  summary : Option Str := none
  base_url : Option Str := none
  default_section : Str := str "Main"
  auto_sections : Bool := true
  section_rules : Option (List (Str × Str)) := none
  segment_rules : Option (List (Str × Str)) := none
  optional_paths : Option (List Str) := none

def LOCALE_LIKE : List Str :=
  [str "en", str "de", str "fr", str "es", str "it", str "pt", str "ja",
   str "zh", str "ko", str "nl", str "pl", str "ru", str "tr",
   str "en-us", str "en-gb", str "es-mx", str "pt-br", str "zh-cn",
   str "zh-tw", str "en-au", str "en-in"]

def OPTIONAL_SEGMENTS : List Str :=
  [str "legal", str "privacy", str "terms", str "cookies", str "cookie",
   str "optional"]

/-- `_escape_md(s)` from `generator.py`. -/
def _escape_md (s : Str) : Str :=
  if s = [] then s
  else
    replaceChar ']' (str "\\]")
      (replaceChar '[' (str "\\[") (replaceChar '\\' (str "\\\\") s))

/-- `_normalize_for_compare(url)` from `generator.py` (note the
`endswith(("/", ""))` check, which is always true). -/
def _normalize_for_compare (url : Str) : Str :=
  let u := rstripSet ['/'] url
  if !(List.isSuffixOf (str "/") u || List.isSuffixOf (str "") u) then u
  else if u = [] then str "/" else u

def stripSet (cs : List Char) (s : Str) : Str := rstripSet cs (lstripSet cs s)

/-- `_path_segments(path)` from `generator.py`. -/
def _path_segments (path : Str) : List Str :=
  ((splitOnChar '/' (stripSet ['/'] (if path = [] then str "/" else path))).filter
    (fun s => s ≠ [])).map pyLower

/-- `seg.replace("-", "").isalnum()`. -/
def segAlnum (seg : Str) : Bool :=
  let t := seg.filter (fun c => c ≠ '-')
  t ≠ [] && t.all isAsciiAlnum

/-- `_infer_section_key(path)` from `generator.py`. -/
def _infer_section_key (path : Str) : Str :=
  let segments := _path_segments path
  if segments = [] then str "main"
  else
    match segments.find? (fun seg => OPTIONAL_SEGMENTS.contains seg) with
    | some _ => str "optional"
    | none =>
      match segments.find? (fun seg =>
          !LOCALE_LIKE.contains seg && seg.length ≤ 30 && segAlnum seg) with
      | some seg => seg
      | none => str "main"

/-- `_section_key_to_title(key, default_section)` from `generator.py`. -/
def _section_key_to_title (key : Str) (defaultSection : Str) : Str :=
  if key = str "main" then defaultSection
  else if key = str "optional" then str "Optional"
  else pyTitle (replaceChar '-' (str " ") key)

/-- `_section_for_url(url, options)` from `generator.py`. -/
def _section_for_url (url : Str) (options : GeneratorOptions) : Str :=
  let parsed := urlparse url []
  let path := pyLower (if parsed.path = [] then str "/" else parsed.path)
  if options.auto_sections then
    _section_key_to_title (_infer_section_key path) options.default_section
  else
    let optPaths := (options.optional_paths).getD []
    if optPaths.any (fun pfx =>
        List.isPrefixOf (pyLower (rstripSet ['/'] pfx)) path || path = pyLower pfx) then
      str "Optional"
    else
      let segments := _path_segments path
      match ((options.section_rules).getD []).find? (fun r =>
          let p := rstripSet ['/'] (pyLower r.1)
          p ≠ [] && (List.isPrefixOf (p ++ str "/") path || path = p)) with
      | some r => r.2
      | none =>
        match ((options.segment_rules).getD []).find? (fun r =>
            segments.contains (pyLower r.1)) with
        | some r => r.2
        | none => options.default_section

/-- `_find_homepage(pages, base_url)` from `generator.py`. -/
def _find_homepage (pages : List PageInfo) (baseUrl : Option Str) : Str × Str :=
  match pages with
  | [] => (str "Site", [])
  | p0 :: _ =>
    let base :=
      match baseUrl with
      | some b =>
        if b ≠ [] then rstripSet ['/'] b
        else
          let parsed := urlparse p0.url []
          (if parsed.scheme = [] then str "https" else parsed.scheme) ++
            str "://" ++ parsed.netloc
      | none =>
        let parsed := urlparse p0.url []
        (if parsed.scheme = [] then str "https" else parsed.scheme) ++
          str "://" ++ parsed.netloc
    let homepage := (pages.find? (fun p =>
        let n := _normalize_for_compare p.url
        n = base || n = base ++ str "/")).getD p0
    let t := pyStrip homepage.title
    ((if t = [] then str "Site" else t), pyStrip homepage.description)

/-- First-seen-order deduplication (the `section_order` list built by the
grouping loop of `generate_llms_txt`). -/
def dedupFirst (l : List Str) : List Str :=
  l.foldl (fun acc s => if acc.contains s then acc else acc ++ [s]) []

/-- Python `<` on strings (lexicographic by code point). -/
def strLt : Str → Str → Bool
  | [], [] => false
  | [], _ :: _ => true
  | _ :: _, [] => false
  | a :: as', b :: bs => a < b || (a = b && strLt as' bs)

/-- The comparison induced by the sort key
`lambda s: (0 if s == main_label else 1, s.lower())`. -/
def sectionKeyLe (mainLabel : Str) (a b : Str) : Bool :=
  let ka : Nat := if a = mainLabel then 0 else 1
  let kb : Nat := if b = mainLabel then 0 else 1
  ka < kb ||
    (ka = kb && (strLt (pyLower a) (pyLower b) || pyLower a = pyLower b))

def insertSorted (le : Str → Str → Bool) (x : Str) : List Str → List Str
  | [] => [x]
  | y :: ys => if le x y then x :: y :: ys else y :: insertSorted le x ys

/-- Stable sort (insertion sort; agrees with Python's stable `list.sort`
for any total preorder `le`). -/
def stableSort (le : Str → Str → Bool) : List Str → List Str
  | [] => []
  | x :: xs => insertSorted le x (stableSort le xs)

/-- Lines 154-160 of `generate_llms_txt`: the final section ordering. -/
def orderSections (sectionOrder : List Str) (mainLabel : Str) : List Str :=
  let ordered := sectionOrder.filter (fun s => s ≠ str "Optional")
  let ordered :=
    if ordered.contains mainLabel then mainLabel :: ordered.erase mainLabel
    else ordered
  let ordered := stableSort (sectionKeyLe mainLabel) ordered
  if sectionOrder.contains (str "Optional") then ordered ++ [str "Optional"]
  else ordered

/-- One list item of the rendering loop of `generate_llms_txt`
(lines 167-174). -/
def renderItemLine (p : PageInfo) : Str :=
  let url := p.url
  let t0 := pyStrip p.title
  let t := if t0 = [] then url else t0
  let desc := pyStrip p.description
  if desc ≠ [] then
    str "- [" ++ t ++ str "](" ++ url ++ str "): " ++ _escape_md desc
  else
    str "- [" ++ t ++ str "](" ++ url ++ str ")"

/-- `generate_llms_txt(pages, options)` from `generator.py`. -/
def generate_llms_txt (pages : List PageInfo) (opts : GeneratorOptions) : Str :=
  let ts :=
    match opts.site_name with
    | some sn =>
      let t := pyStrip sn
      ((if t = [] then str "Site" else t), pyStrip ((opts.summary).getD []))
    | none => _find_homepage pages opts.base_url
  let title := ts.1
  let summary :=
    match opts.summary with
    | some s => pyStrip s
    | none => ts.2
  let sectionOf := fun (p : PageInfo) => _section_for_url p.url opts
  let sectionOrder := dedupFirst (pages.map sectionOf)
  let groups := fun (s : Str) => pages.filter (fun p => sectionOf p = s)
  let headerLines :=
    [str "# " ++ title, []] ++ (if summary ≠ [] then [str "> " ++ summary, []] else [])
  let ordered := orderSections sectionOrder opts.default_section
  let bodyLines := ordered.flatMap (fun sec =>
    let items := groups sec
    if items = [] then []
    else [str "## " ++ sec, []] ++ items.map renderItemLine ++ [[]])
  pyRStripWS (List.intercalate ['\n'] (headerLines ++ bodyLines)) ++ ['\n']

/-! ## Helper lemmas -/

theorem dropWhile_head?_not {α} (p : α → Bool) (l : List α) (c : α)
    (h : (l.dropWhile p).head? = some c) : p c = false := by
  induction l with
  | nil => simp at h
  | cons a as ih =>
    by_cases hp : p a
    · rw [List.dropWhile_cons_of_pos hp] at h
      exact ih h
    · rw [List.dropWhile_cons_of_neg hp] at h
      simp at h
      subst h
      simpa using hp

theorem rstripSet_getLast? (cs : List Char) (l : Str) (c : Char)
    (h : (rstripSet cs l).getLast? = some c) : cs.contains c = false := by
  unfold rstripSet at h
  rw [List.getLast?_reverse] at h
  exact dropWhile_head?_not _ _ _ h

theorem rstripSet_ne_nil_of_mem (cs : List Char) (l : Str) (c : Char)
    (hc : c ∈ l) (hnot : cs.contains c = false) : rstripSet cs l ≠ [] := by
  intro hnil
  unfold rstripSet at hnil
  rw [List.reverse_eq_nil_iff, List.dropWhile_eq_nil_iff] at hnil
  have := hnil c (by simpa using hc)
  rw [hnot] at this
  exact Bool.false_ne_true this

theorem colon_mem_urlunsplit (scheme netloc u q f : Str) (h : scheme ≠ []) :
    ':' ∈ urlunsplit scheme netloc u q f := by
  unfold urlunsplit
  have hmem : ∀ (x : Str), ':' ∈ scheme ++ ':' :: x := by
    intro x
    simp [List.mem_append]
  simp only [h, if_true]
  repeat' split
  all_goals simp [List.mem_append]

theorem colon_mem_urlunparse (p : ParseResult) (h : p.scheme ≠ []) :
    ':' ∈ urlunparse p := by
  unfold urlunparse
  exact colon_mem_urlunsplit _ _ _ _ _ h

theorem normalizeJoined_getLast?_ne_slash (v : Str) :
    (normalizeJoined v).getLast? ≠ some '/' := by
  unfold normalizeJoined
  set parsed := urlparse v [] with hparsed
  have hs : (if parsed.scheme = [] then str "https" else parsed.scheme) ≠ [] := by
    split
    · decide
    · assumption
  set normalized := urlunparse
    ⟨(if parsed.scheme = [] then str "https" else parsed.scheme),
     stripDefaultPort parsed.scheme parsed.netloc,
     (if parsed.path = [] then str "/" else parsed.path), parsed.params, parsed.query, []⟩
    with hnormalized
  have hcolon : ':' ∈ normalized := colon_mem_urlunparse _ hs
  have hr : rstripSet ['/'] normalized ≠ [] :=
    rstripSet_ne_nil_of_mem _ _ ':' hcolon (by decide)
  rw [if_neg hr]
  intro hlast
  have := rstripSet_getLast? _ _ _ hlast
  simp at this

/-! ## Claim C3 -/

/-- Claim C3 is false on the code: `normalize_url` right-strips every
trailing `/` of the whole unparsed URL, so the root path loses its slash
(`https://ex.com/` normalizes to `https://ex.com`, not to itself) and a
path ending in two slashes loses both (not exactly one). -/
theorem c3_counterexample :
    normalize_url (str "https://ex.com/") none = str "https://ex.com" ∧
    normalize_url (str "https://ex.com/") none ≠ str "https://ex.com/" ∧
    normalize_url (str "https://ex.com/a//") none = str "https://ex.com/a" ∧
    normalize_url (str "https://ex.com/a//") none ≠ str "https://ex.com/a/" := by
  refine ⟨by decide, by decide, by decide, by decide⟩

/-- Claim C3 (amended): `normalize_url` strips all trailing `/` characters
from the unparsed URL — the root slash included — so no normalized URL ends
in `/` (the `or normalized` fallback for an all-slash string is unreachable
because the scheme prefix is always present). -/
theorem c3_amended_no_trailing_slash (url : Str) (base : Option Str) :
    (normalize_url url base).getLast? ≠ some '/' := by
  unfold normalize_url
  exact normalizeJoined_getLast?_ne_slash _

/-! ## Claim C5 -/

/-- Claim C5: when the robots.txt fetch raises or returns a non-200
status, `get_robots_policy` degrades to the empty policy: no disallowed
patterns, the default crawl delay, and `is_path_allowed` accepts every
path against the empty pattern list. -/
theorem c5_robots_failure_fail_open (web : TextWeb) (origin : Str)
    (h : web (get_robots_url origin) = none ∨
      ∃ st body, web (get_robots_url origin) = some (st, body) ∧ st ≠ 200) :
    get_robots_policy web origin = ([], DEFAULT_CRAWL_DELAY) ∧
      ∀ path : Str, is_path_allowed path [] = true := by
  have hempty : fetch_robots_txt web origin = [] := by
    unfold fetch_robots_txt
    rcases h with h | ⟨st, body, h, hst⟩
    · rw [h]
    · rw [h]
      simp [hst]
  refine ⟨?_, ?_⟩
  · unfold get_robots_policy
    rw [hempty]
    decide
  · intro path
    unfold is_path_allowed
    simp

/-- Witness for C5 at a concrete failing fetch. -/
theorem c5_witness :
    get_robots_policy (fun _ => none) (str "https://ex.com") =
        ([], DEFAULT_CRAWL_DELAY) ∧
      ∀ path : Str, is_path_allowed path [] = true :=
  c5_robots_failure_fail_open (fun _ => none) (str "https://ex.com") (Or.inl rfl)

/-! ## Claim C8 -/

/-- Claim C8 is false on the code: the generated document does not begin
with the claimed text, because the homepage's nonempty description is also
rendered on its list item (`- [Home](https://s.com/): Welcome`). -/
theorem c8_counterexample :
    List.isPrefixOf
        (str "# Home\n\n> Welcome\n\n## Main\n\n- [Home](https://s.com/)\n")
        (generate_llms_txt [⟨str "https://s.com/", str "Home", str "Welcome"⟩] {}) =
      false := by
  decide

/-- Claim C8 (amended): on the single-page input the generator produces
exactly `# Home\n\n> Welcome\n\n## Main\n\n- [Home](https://s.com/): Welcome\n`
(the homepage description is both the block-quoted summary and the list
item's trailing description). -/
theorem c8_amended_exact_document :
    generate_llms_txt [⟨str "https://s.com/", str "Home", str "Welcome"⟩] {} =
      str "# Home\n\n> Welcome\n\n## Main\n\n- [Home](https://s.com/): Welcome\n" := by
  decide

/-! ## Claim C10 -/

/-- Claim C10: in a rendered list item only the (stripped) description is
markdown-escaped; the title and the URL are inserted verbatim. -/
theorem c10_escape_only_description (url t d : Str) (h : pyStrip t ≠ []) :
    renderItemLine ⟨url, t, d⟩ =
      str "- [" ++ pyStrip t ++ str "](" ++ url ++
        (if pyStrip d = [] then str ")"
         else str "): " ++ _escape_md (pyStrip d)) := by
  unfold renderItemLine
  by_cases hd : pyStrip d = []
  · simp [h, hd]
  · simp [h, hd]

/-- Witness for C10: a title containing `[` and `]` appears unescaped
while the description is escaped. -/
theorem c10_witness :
    renderItemLine ⟨str "https://e.com", str " a[b] ", str " x[y] "⟩ =
      str "- [a[b]](https://e.com): x\\[y\\]" := by
  rw [c10_escape_only_description _ _ _ (by decide)]
  decide

/-! ## Crawl-loop invariants -/

theorem crawlStepLoop_sleepLog_all (web : Web) (opts : CrawlOptions)
    (patterns : List Str) (delay : ℚ) (origin : Str) :
    ∀ (fuel : Nat) (s : CrawlState), (∀ q ∈ s.sleepLog, q = delay) →
      ∀ q ∈ (crawlStepLoop web opts patterns delay origin fuel s).sleepLog, q = delay := by
  intro fuel
  induction fuel with
  | zero => intro s hs; simpa [crawlStepLoop] using hs
  | succ n ih =>
    intro s hs
    rw [crawlStepLoop]
    cases htv : s.toVisit with
    | nil => exact hs
    | cons url rest =>
      show ∀ q ∈ (if ¬ ((s.results.length : Int) < opts.max_pages) then s else _).sleepLog,
        q = delay
      by_cases hguard : ((s.results.length : Int) < opts.max_pages)
      · rw [if_neg (not_not_intro hguard)]
        by_cases hvis : s.visited.contains url = true
        · rw [if_pos hvis]
          exact ih _ hs
        · rw [if_neg hvis]
          by_cases hpa : (!crawlPathAllowed patterns url) = true
          · rw [if_pos hpa]
            exact ih _ hs
          · rw [if_neg hpa]
            cases hw : web.pages url with
            | none => exact ih _ hs
            | some resp =>
              dsimp only
              by_cases hst : resp.status ≠ 200
              · rw [if_pos hst]
                exact ih _ hs
              · rw [if_neg hst]
                apply ih
                intro q hq
                have hq' : q ∈ (if delay > 0 then s.sleepLog ++ [delay] else s.sleepLog) := hq
                by_cases hdel : delay > 0
                · rw [if_pos hdel] at hq'
                  rcases List.mem_append.mp hq' with h | h
                  · exact hs _ h
                  · simpa using h
                · rw [if_neg hdel] at hq'
                  exact hs _ hq'
      · rw [if_pos hguard]
        exact hs

def CrawlInv (maxPages : Int) (s : CrawlState) : Prop :=
  ((s.results.length : Int) ≤ maxPages) ∧ s.fetchLog.Nodup ∧
    ∀ u ∈ s.fetchLog, u ∈ s.visited

theorem crawlStepLoop_inv (web : Web) (opts : CrawlOptions)
    (patterns : List Str) (delay : ℚ) (origin : Str) :
    ∀ (fuel : Nat) (s : CrawlState), CrawlInv opts.max_pages s →
      CrawlInv opts.max_pages (crawlStepLoop web opts patterns delay origin fuel s) := by
  intro fuel
  induction fuel with
  | zero => intro s hs; simpa [crawlStepLoop] using hs
  | succ n ih =>
    intro s hs
    obtain ⟨hlen, hnd, hsub⟩ := hs
    rw [crawlStepLoop]
    cases htv : s.toVisit with
    | nil => exact ⟨hlen, hnd, hsub⟩
    | cons url rest =>
      show CrawlInv opts.max_pages
        (if ¬ ((s.results.length : Int) < opts.max_pages) then s else _)
      by_cases hguard : ((s.results.length : Int) < opts.max_pages)
      · rw [if_neg (not_not_intro hguard)]
        by_cases hvis : s.visited.contains url = true
        · rw [if_pos hvis]
          exact ih _ ⟨hlen, hnd, hsub⟩
        · rw [if_neg hvis]
          have hurlvis : url ∉ s.visited := by
            intro hmem
            exact hvis (List.elem_eq_true_of_mem hmem)
          have hurlnew : url ∉ s.fetchLog := fun hmem => hurlvis (hsub url hmem)
          have hnd1 : (s.fetchLog ++ [url]).Nodup := by
            simp [List.nodup_append, hnd, hurlnew]
          have hsub1 : ∀ u ∈ s.fetchLog ++ [url], u ∈ url :: s.visited := by
            intro u hu
            rcases List.mem_append.mp hu with h | h
            · exact List.mem_cons_of_mem _ (hsub u h)
            · simp at h
              simp [h]
          by_cases hpa : (!crawlPathAllowed patterns url) = true
          · rw [if_pos hpa]
            exact ih _ ⟨hlen, hnd, hsub⟩
          · rw [if_neg hpa]
            cases hw : web.pages url with
            | none => exact ih _ ⟨hlen, hnd1, hsub1⟩
            | some resp =>
              dsimp only
              by_cases hst : resp.status ≠ 200
              · rw [if_pos hst]
                exact ih _ ⟨hlen, hnd1, hsub1⟩
              · rw [if_neg hst]
                apply ih
                refine ⟨?_, hnd1, ?_⟩
                · simp only [List.length_append, List.length_cons, List.length_nil]
                  push_cast
                  omega
                · intro u hu
                  have hu2 := hsub1 u hu
                  by_cases hfin : normalize_url resp.finalUrl none ≠ url
                  · rw [if_pos hfin]
                    exact List.mem_cons_of_mem _ hu2
                  · rw [if_neg hfin]
                    exact hu2
      · rw [if_pos hguard]
        exact ⟨hlen, hnd, hsub⟩

/-! ## Claim C1 -/

/-- Claim C1: a crawl returns at most `max_pages` records (for any
nonnegative `max_pages`, which the data model requires positive), and no
URL is dequeued-and-fetched twice: the log of URLs passed to
`requests.get` has no duplicates. -/
theorem c1_crawl_cap_and_no_refetch (web : Web) (fuel : Nat) (baseUrl : Str)
    (opts : CrawlOptions) (h : 0 ≤ opts.max_pages) :
    ((crawl_site web fuel baseUrl opts).length : Int) ≤ opts.max_pages ∧
      (crawl_run web fuel baseUrl opts).fetchLog.Nodup := by
  have hinv : CrawlInv opts.max_pages (crawl_run web fuel baseUrl opts) := by
    unfold crawl_run
    apply crawlStepLoop_inv
    refine ⟨by simpa using h, List.nodup_nil, ?_⟩
    intro u hu
    simp at hu
  exact ⟨hinv.1, hinv.2.1⟩

def c1Web : Web where
  pages := fun u =>
    if u = str "https://ex.com" then
      some ⟨200, str "https://ex.com", ⟨some (str "Home"), none, none, [str "/a"]⟩⟩
    else if u = str "https://ex.com/a" then
      some ⟨200, str "https://ex.com/a", ⟨some (str "A"), none, none, [str "/"]⟩⟩
    else none
  robots := fun _ => none
  xml := fun _ => none

/-- Witness for C1 on a two-page site with a link cycle. -/
theorem c1_witness :
    ((crawl_site c1Web 10 (str "https://ex.com") {}).length : Int) ≤
        ({} : CrawlOptions).max_pages ∧
      (crawl_run c1Web 10 (str "https://ex.com") {}).fetchLog.Nodup :=
  c1_crawl_cap_and_no_refetch c1Web 10 (str "https://ex.com") {} (by decide)

/-! ## Claim C4 -/

def c4Web : Web where
  pages := fun u =>
    if u = str "https://ex.com" then
      some ⟨200, str "https://ex.com", ⟨some (str "Home"), none, none, []⟩⟩
    else none
  robots := fun _ => some (200, [])
  xml := fun _ => none

def c4Opts : CrawlOptions :=
  { max_pages := 10, timeout := 10, crawl_delay := 2,
    respect_robots := true, use_sitemap := true, sitemap_max_urls := 500 }

/-- Claim C4 is false on the code: with `respect_robots` on and
`crawl_delay = 2`, an empty robots.txt resolves to the default delay `0.5`,
and the crawl sleeps `0.5` — the robots-resolved delay replaces the
configured delay even though it is smaller, so the slept delay is not
`max(crawl_delay, robots delay)`. -/
theorem c4_counterexample :
    (crawl_run c4Web 5 (str "https://ex.com") c4Opts).sleepLog = [mkRat 1 2] ∧
      ¬ (mkRat 1 2 =
          max c4Opts.crawl_delay
            (get_robots_policy c4Web.robots
              (get_origin (normalize_url (str "https://ex.com") none))).2) := by
  exact ⟨by decide, by decide⟩

/-- Claim C4 (amended): with `respect_robots` enabled the effective delay
is the robots-resolved delay whenever it is positive — and it always is,
because `get_robots_policy` returns at least the 0.5s default — so it
displaces `crawl_delay` unconditionally, even when smaller; every slept
delay of the crawl equals that effective delay. -/
theorem c4_amended_robots_delay_always_wins (web : Web) (opts : CrawlOptions)
    (origin : Str) (h : opts.respect_robots = true) :
    (get_robots_policy web.robots origin).2 > 0 ∧
    (crawlEffectivePolicy web opts origin).2 = (get_robots_policy web.robots origin).2 ∧
    ∀ (fuel : Nat) (baseUrl : Str) (q : ℚ),
      q ∈ (crawl_run web fuel baseUrl opts).sleepLog →
        q = (crawlEffectivePolicy web opts
              (get_origin (normalize_url baseUrl none))).2 := by
  have hpos : (get_robots_policy web.robots origin).2 > 0 := by
    unfold get_robots_policy
    dsimp only
    split
    · decide
    · rename_i hgt
      exact lt_of_not_le hgt
  refine ⟨hpos, ?_, ?_⟩
  · unfold crawlEffectivePolicy
    rw [h]
    simp [hpos]
  · intro fuel baseUrl q hq
    unfold crawl_run at hq
    exact crawlStepLoop_sleepLog_all _ _ _ _ _ fuel _ (by intro q hq; simp at hq) q hq

/-- Witness for C4's amended theorem at the counterexample's inputs. -/
theorem c4_amended_witness :
    (get_robots_policy c4Web.robots (str "https://ex.com")).2 > 0 ∧
    (crawlEffectivePolicy c4Web c4Opts (str "https://ex.com")).2 =
      (get_robots_policy c4Web.robots (str "https://ex.com")).2 ∧
    (mkRat 1 2 ∈ (crawl_run c4Web 5 (str "https://ex.com") c4Opts).sleepLog →
      mkRat 1 2 =
        (crawlEffectivePolicy c4Web c4Opts
          (get_origin (normalize_url (str "https://ex.com") none))).2) := by
  have h := c4_amended_robots_delay_always_wins c4Web c4Opts (str "https://ex.com") rfl
  exact ⟨h.1, h.2.1, h.2.2 5 (str "https://ex.com") (mkRat 1 2)⟩

/-! ## Sitemap collector invariants -/

theorem collectSitemapUrls_inv (origin : Str) (maxu : Int) :
    ∀ (locs : List (Option Str)) (res : List Str),
      res.Nodup → (∀ u ∈ res, is_same_origin u origin = true) →
      (((res.length : Int) < maxu) ∨ res = []) →
      (collectSitemapUrls origin maxu locs res).Nodup ∧
        (∀ u ∈ collectSitemapUrls origin maxu locs res, is_same_origin u origin = true) ∧
        ((collectSitemapUrls origin maxu locs res).length : Int) ≤ max maxu 1 := by
  intro locs
  induction locs with
  | nil =>
    intro res hnd hall hlen
    refine ⟨hnd, hall, ?_⟩
    show ((res.length : Int) ≤ max maxu 1)
    rcases hlen with hlt | hnil
    · exact le_trans (le_of_lt hlt) (le_max_left _ _)
    · subst hnil
      exact le_trans (by norm_num) (le_max_right maxu 1)
  | cons loc rest ih =>
    intro res hnd hall hlen
    rw [collectSitemapUrls]
    by_cases htext : locText loc ≠ []
    · rw [if_pos htext]
      try dsimp only
      by_cases hcond :
          (is_same_origin (normalize_url (pyStrip (locText loc)) none) origin &&
            !res.contains (normalize_url (pyStrip (locText loc)) none)) = true
      · rw [if_pos hcond]
        try dsimp only
        rw [Bool.and_eq_true] at hcond
        obtain ⟨hso, hnc⟩ := hcond
        have hnotmem : normalize_url (pyStrip (locText loc)) none ∉ res := by
          intro hm
          have hc : res.contains (normalize_url (pyStrip (locText loc)) none) = true :=
            List.elem_eq_true_of_mem hm
          rw [hc] at hnc
          simp at hnc
        have hnd' : (res ++ [normalize_url (pyStrip (locText loc)) none]).Nodup := by
          simp [List.nodup_append, hnd, hnotmem]
        have hall' : ∀ v ∈ res ++ [normalize_url (pyStrip (locText loc)) none],
            is_same_origin v origin = true := by
          intro v hv
          rcases List.mem_append.mp hv with h | h
          · exact hall v h
          · simp at h
            rw [h]
            exact hso
        have hlen1 : ((res ++ [normalize_url (pyStrip (locText loc)) none]).length : Int) =
            (res.length : Int) + 1 := by
          simp
        by_cases hstop :
            (((res ++ [normalize_url (pyStrip (locText loc)) none]).length : Int) ≥ maxu)
        · rw [if_pos hstop]
          refine ⟨hnd', hall', ?_⟩
          rw [hlen1]
          rcases hlen with hlt | hnil
          · exact le_trans (by omega) (le_max_left maxu 1)
          · subst hnil
            exact le_trans (by norm_num) (le_max_right maxu 1)
        · rw [if_neg hstop]
          apply ih _ hnd' hall'
          left
          rw [hlen1]
          omega
      · rw [if_neg hcond]
        exact ih res hnd hall hlen
    · rw [if_neg htext]
      exact ih res hnd hall hlen

theorem collectSitemapUrls_sublist (origin : Str) (maxu : Int) :
    ∀ (locs : List (Option Str)) (res : List Str),
      ∃ extra, collectSitemapUrls origin maxu locs res = res ++ extra ∧
        extra.Sublist
          (locs.map (fun loc => normalize_url (pyStrip (locText loc)) none)) := by
  intro locs
  induction locs with
  | nil =>
    intro res
    exact ⟨[], by simp [collectSitemapUrls], List.nil_sublist _⟩
  | cons loc rest ih =>
    intro res
    rw [collectSitemapUrls]
    by_cases htext : locText loc ≠ []
    · rw [if_pos htext]
      try dsimp only
      by_cases hcond :
          (is_same_origin (normalize_url (pyStrip (locText loc)) none) origin &&
            !res.contains (normalize_url (pyStrip (locText loc)) none)) = true
      · rw [if_pos hcond]
        try dsimp only
        by_cases hstop :
            (((res ++ [normalize_url (pyStrip (locText loc)) none]).length : Int) ≥ maxu)
        · rw [if_pos hstop]
          refine ⟨[normalize_url (pyStrip (locText loc)) none], rfl, ?_⟩
          rw [List.map_cons]
          exact (List.nil_sublist _).cons₂ _
        · rw [if_neg hstop]
          obtain ⟨extra, he, hsub⟩ := ih (res ++ [normalize_url (pyStrip (locText loc)) none])
          refine ⟨normalize_url (pyStrip (locText loc)) none :: extra, ?_, ?_⟩
          · rw [he, List.append_assoc]
            rfl
          · rw [List.map_cons]
            exact hsub.cons₂ _
      · rw [if_neg hcond]
        obtain ⟨extra, he, hsub⟩ := ih res
        exact ⟨extra, he, hsub.cons _⟩
    · rw [if_neg htext]
      obtain ⟨extra, he, hsub⟩ := ih res
      exact ⟨extra, he, hsub.cons _⟩

theorem urlsFromSitemapXml_props (web : XmlWeb) (src origin : Str) (maxu : Int)
    (root : Option XmlDoc) :
    (urlsFromSitemapXml web src origin maxu root).Nodup ∧
      (∀ u ∈ urlsFromSitemapXml web src origin maxu root,
        is_same_origin u origin = true) ∧
      ((urlsFromSitemapXml web src origin maxu root).length : Int) ≤ max maxu 1 := by
  unfold urlsFromSitemapXml
  cases hF : sitemapFetchDoc web src root with
  | none =>
    refine ⟨List.nodup_nil, by simp, ?_⟩
    show ((0 : Int) ≤ max maxu 1)
    exact le_trans (by norm_num) (le_max_right maxu 1)
  | some r =>
    exact collectSitemapUrls_inv origin maxu (xmlUrlLocs r) [] List.nodup_nil
      (by simp) (Or.inr rfl)

theorem fetch_sitemap_urls_props (web : XmlWeb) (origin : Str) (maxu : Int) :
    (fetch_sitemap_urls web origin maxu).Nodup ∧
      (∀ u ∈ fetch_sitemap_urls web origin maxu, is_same_origin u origin = true) ∧
      ((fetch_sitemap_urls web origin maxu).length : Int) ≤ max maxu 1 := by
  have hnil : ∀ (l : List Str), l = [] →
      l.Nodup ∧ (∀ u ∈ l, is_same_origin u origin = true) ∧
        ((l.length : Int) ≤ max maxu 1) := by
    intro l hl
    subst hl
    exact ⟨List.nodup_nil, by simp, le_trans (by norm_num) (le_max_right maxu 1)⟩
  unfold fetch_sitemap_urls
  try dsimp only
  cases hw : web (get_sitemap_url origin) with
  | none => exact hnil _ rfl
  | some pr =>
    obtain ⟨st, parsed⟩ := pr
    try dsimp only
    by_cases hst : st ≠ 200
    · rw [if_pos hst]
      exact hnil _ rfl
    · rw [if_neg hst]
      cases parsed with
      | none => exact hnil _ rfl
      | some root =>
        try dsimp only
        cases hsl : xmlSitemapLocs root with
        | nil => exact urlsFromSitemapXml_props _ _ _ _ _
        | cons firstLoc locsRest =>
          try dsimp only
          by_cases hft : locText firstLoc ≠ []
          · rw [if_pos hft]
            exact urlsFromSitemapXml_props _ _ _ _ _
          · rw [if_neg hft]
            exact urlsFromSitemapXml_props _ _ _ _ _

/-! ## Claim C7 -/

def c7Doc : XmlDoc := ⟨[], [], [some (str "https://ex.com/a")], []⟩

def c7Web : XmlWeb := fun u =>
  if u = get_sitemap_url (str "https://ex.com") then some (200, some c7Doc) else none

/-- Claim C7 is false on the code at `max_urls = 0`: the truncation check
`len(result) >= max_urls` runs only after an append, so a non-positive cap
still lets one URL through and the claimed `length ≤ max_urls` bound
fails. -/
theorem c7_counterexample :
    fetch_sitemap_urls c7Web (str "https://ex.com") 0 = [str "https://ex.com/a"] ∧
      ¬ (((fetch_sitemap_urls c7Web (str "https://ex.com") 0).length : Int) ≤ 0) := by
  exact ⟨by decide, by decide⟩

/-- Claim C7 (amended): a failed fetch (exception, non-200 status, or
unparsable XML) yields `[]`; on a sitemap index only the first child's URL
set is fetched and used, independent of the remaining children; the result
is duplicate-free, contains only same-origin URLs, preserves first-seen
order (it is a sublist of the normalized locations in document order), and
has length at most `max(max_urls, 1)` — one URL can slip past a
non-positive cap. -/
theorem c7_amended_sitemap (web : XmlWeb) (origin : Str) (maxu : Int) :
    (web (get_sitemap_url origin) = none → fetch_sitemap_urls web origin maxu = []) ∧
    (∀ st doc, web (get_sitemap_url origin) = some (st, doc) → st ≠ 200 →
      fetch_sitemap_urls web origin maxu = []) ∧
    (∀ st, web (get_sitemap_url origin) = some (st, none) →
      fetch_sitemap_urls web origin maxu = []) ∧
    (∀ root t rest, web (get_sitemap_url origin) = some (200, some root) →
      xmlSitemapLocs root = some t :: rest → t ≠ [] →
      fetch_sitemap_urls web origin maxu =
        urlsFromSitemapXml web (pyStrip t) origin maxu none) ∧
    (fetch_sitemap_urls web origin maxu).Nodup ∧
    (∀ u ∈ fetch_sitemap_urls web origin maxu, is_same_origin u origin = true) ∧
    ((fetch_sitemap_urls web origin maxu).length : Int) ≤ max maxu 1 ∧
    (∀ locs : List (Option Str),
      (collectSitemapUrls origin maxu locs []).Sublist
        (locs.map (fun loc => normalize_url (pyStrip (locText loc)) none))) := by
  obtain ⟨hnd, hall, hlen⟩ := fetch_sitemap_urls_props web origin maxu
  refine ⟨?_, ?_, ?_, ?_, hnd, hall, hlen, ?_⟩
  · intro h
    unfold fetch_sitemap_urls
    try dsimp only
    rw [h]
  · intro st doc h hst
    unfold fetch_sitemap_urls
    try dsimp only
    rw [h]
    try dsimp only
    rw [if_pos hst]
  · intro st h
    unfold fetch_sitemap_urls
    try dsimp only
    rw [h]
    try dsimp only
    by_cases hst : st ≠ 200
    · rw [if_pos hst]
    · rw [if_neg hst]
  · intro root t rest hw hlocs ht
    unfold fetch_sitemap_urls
    try dsimp only
    rw [hw]
    try dsimp only
    rw [if_neg (by simp : ¬ ((200 : Int) ≠ 200))]
    try dsimp only
    rw [hlocs]
    dsimp only [locText]
    rw [if_pos ht]
  · intro locs
    obtain ⟨extra, he, hsub⟩ := collectSitemapUrls_sublist origin maxu locs []
    rw [he]
    simpa using hsub

def c7childDoc : XmlDoc := ⟨[], [], [some (str "https://ex.com/a")], []⟩

def c7ixDoc : XmlDoc :=
  ⟨[some (str "https://ex.com/child1.xml"), some (str "https://ex.com/child2.xml")],
   [], [], []⟩

def c7ixWeb : XmlWeb := fun u =>
  if u = get_sitemap_url (str "https://ex.com") then some (200, some c7ixDoc)
  else if u = str "https://ex.com/child1.xml" then some (200, some c7childDoc)
  else none

/-- Witness for C7's amended theorem on a two-child sitemap index whose
first child holds one same-origin URL. -/
theorem c7_witness :
    fetch_sitemap_urls c7ixWeb (str "https://ex.com") 500 =
        urlsFromSitemapXml c7ixWeb (str "https://ex.com/child1.xml")
          (str "https://ex.com") 500 none ∧
      fetch_sitemap_urls c7ixWeb (str "https://ex.com") 500 = [str "https://ex.com/a"] := by
  have h := c7_amended_sitemap c7ixWeb (str "https://ex.com") 500
  refine ⟨h.2.2.2.1 c7ixDoc (str "https://ex.com/child1.xml")
    [some (str "https://ex.com/child2.xml")] (by decide) (by decide) (by decide), ?_⟩
  decide

/-! ## Robots block structure (for the first-star-block theorem) -/

/-- Whether `parse_robots` treats the raw line as a `User-agent:` line. -/
def isUA (l : Str) : Bool :=
  cleanLine l ≠ [] && List.isPrefixOf (str "user-agent:") (pyLower (cleanLine l))

/-- The (lower-cased, stripped) agent token of a `User-agent:` line. -/
def uaToken (l : Str) : Str := pyLower (pyStrip (dropThrough ':' (cleanLine l)))

/-- A `User-agent:` line whose token is `*`. -/
def isStarUA (l : Str) : Bool := isUA l && uaToken l = str "*"

/-- The compiled pattern a directive line contributes to its block. -/
def lineDisallow (l : Str) : Option Str :=
  let line := cleanLine l
  if line = [] then none
  else if List.isPrefixOf (str "user-agent:") (pyLower line) then none
  else if List.isPrefixOf (str "disallow:") (pyLower line) then
    let path := pyStrip (dropThrough ':' line)
    if path ≠ [] then some (compileDisallow path) else none
  else none

/-- The disallow list a block's directive lines accumulate. -/
def blockDisallows (ls : List Str) : List Str := ls.filterMap lineDisallow

/-- The delay value a directive line contributes to its block. -/
def lineDelay (l : Str) : Option ℚ :=
  let line := cleanLine l
  if line = [] then none
  else if List.isPrefixOf (str "user-agent:") (pyLower line) then none
  else if List.isPrefixOf (str "disallow:") (pyLower line) then none
  else if List.isPrefixOf (str "crawl-delay:") (pyLower line) then
    match pySplitWS (pyStrip (dropThrough ':' line)) with
    | [] => none
    | v :: _ => floatOfStr v
  else none

def overrideOpt (a b : Option ℚ) : Option ℚ :=
  match b with
  | some q => some q
  | none => a

/-- The last successfully parsed `Crawl-delay:` of a block's lines. -/
def blockDelayOf (ls : List Str) : Option ℚ :=
  ls.foldl (fun acc l => overrideOpt acc (lineDelay l)) none

theorem overrideOpt_foldl (ls : List Str) :
    ∀ acc, ls.foldl (fun acc l => overrideOpt acc (lineDelay l)) acc =
      overrideOpt acc (blockDelayOf ls) := by
  induction ls with
  | nil => intro acc; rfl
  | cons l ls ih =>
    intro acc
    show ls.foldl _ (overrideOpt acc (lineDelay l)) = _
    rw [ih]
    show _ = overrideOpt acc (ls.foldl _ (overrideOpt none (lineDelay l)))
    rw [ih (overrideOpt none (lineDelay l))]
    cases hbd : blockDelayOf ls with
    | some q => rfl
    | none =>
      cases hld : lineDelay l with
      | some q => rfl
      | none => rfl

/-- `robotsLine` on a recognised `User-agent:` line. -/
theorem robotsLine_ua (st : RobotsState) (l : Str) (hua : isUA l = true) :
    robotsLine st l = { flushBlock st with currentAgents := some [uaToken l] } := by
  unfold isUA at hua
  rw [Bool.and_eq_true] at hua
  obtain ⟨hne, hpre⟩ := hua
  unfold robotsLine
  rw [if_neg (by simpa using hne), if_pos hpre]
  rfl

/-- `robotsLine` on a non-`User-agent` line while inside a block: only the
block buffers change, by exactly the line's contribution. -/
theorem robotsLine_directive (st : RobotsState) (l : Str) (ags : List Str)
    (hcur : st.currentAgents = some ags) (hna : isUA l = false) :
    robotsLine st l =
      { st with
        blockDisallowed := st.blockDisallowed ++ (lineDisallow l).toList,
        blockDelay := overrideOpt st.blockDelay (lineDelay l) } := by
  by_cases h0 : cleanLine l = []
  · have hldis : lineDisallow l = none := by simp [lineDisallow, h0]
    have hldel : lineDelay l = none := by simp [lineDelay, h0]
    rw [hldis, hldel]
    unfold robotsLine
    rw [if_pos h0]
    simp [overrideOpt]
  · have hpre : List.isPrefixOf (str "user-agent:") (pyLower (cleanLine l)) = false := by
      by_cases hh : List.isPrefixOf (str "user-agent:") (pyLower (cleanLine l)) = true
      · exfalso
        unfold isUA at hna
        rw [hh] at hna
        simp [h0] at hna
      · exact Bool.eq_false_iff.mpr hh
    unfold robotsLine
    rw [if_neg h0, if_neg (by simp [hpre]), hcur]
    dsimp only
    by_cases hd : List.isPrefixOf (str "disallow:") (pyLower (cleanLine l)) = true
    · have hldel : lineDelay l = none := by simp [lineDelay, h0, hpre, hd]
      rw [if_pos hd]
      by_cases hp : pyStrip (dropThrough ':' (cleanLine l)) ≠ []
      · have hldis : lineDisallow l =
            some (compileDisallow (pyStrip (dropThrough ':' (cleanLine l)))) := by
          simp [lineDisallow, h0, hpre, hd, hp]
        rw [if_pos hp, hldis, hldel]
        simp [overrideOpt, ← hcur]
      · have hldis : lineDisallow l = none := by simp [lineDisallow, h0, hpre, hd, hp]
        rw [if_neg hp, hldis, hldel]
        simp [overrideOpt, ← hcur]
    · have hldis : lineDisallow l = none := by simp [lineDisallow, h0, hpre, hd]
      rw [if_neg hd]
      by_cases hc : List.isPrefixOf (str "crawl-delay:") (pyLower (cleanLine l)) = true
      · rw [if_pos hc]
        cases hws : pySplitWS (pyStrip (dropThrough ':' (cleanLine l))) with
        | nil =>
          have hldel : lineDelay l = none := by simp [lineDelay, h0, hpre, hd, hc, hws]
          rw [hldis, hldel]
          simp [overrideOpt, ← hcur]
        | cons v vs =>
          cases hf : floatOfStr v with
          | none =>
            have hldel : lineDelay l = none := by simp [lineDelay, h0, hpre, hd, hc, hws, hf]
            rw [hldis, hldel]
            simp [overrideOpt, ← hcur, hf]
          | some q =>
            have hldel : lineDelay l = some q := by simp [lineDelay, h0, hpre, hd, hc, hws, hf]
            rw [hldis, hldel]
            simp [overrideOpt, ← hcur, hf]
      · have hldel : lineDelay l = none := by simp [lineDelay, h0, hpre, hd, hc]
        rw [if_neg hc, hldis, hldel]
        simp [overrideOpt, ← hcur]

/-- `robotsLine` before any `User-agent:` line has been seen. -/
theorem robotsLine_skip (st : RobotsState) (l : Str)
    (hcur : st.currentAgents = none) (hna : isUA l = false) :
    robotsLine st l = st := by
  unfold robotsLine
  by_cases h0 : cleanLine l = []
  · rw [if_pos h0]
  · have hpre : List.isPrefixOf (str "user-agent:") (pyLower (cleanLine l)) = false := by
      by_cases hh : List.isPrefixOf (str "user-agent:") (pyLower (cleanLine l)) = true
      · exfalso
        unfold isUA at hna
        rw [hh] at hna
        simp [h0] at hna
      · exact Bool.eq_false_iff.mpr hh
    rw [if_neg h0, if_neg (by simp [hpre]), hcur]

theorem flushBlock_found (st : RobotsState) (h : st.foundStar = true) :
    flushBlock st = { st with blockDisallowed := [], blockDelay := none } := by
  unfold flushBlock
  rw [h]
  simp

theorem flushBlock_none (st : RobotsState) (hcur : st.currentAgents = none) :
    flushBlock st = { st with blockDisallowed := [], blockDelay := none } := by
  unfold flushBlock
  rw [hcur]
  simp

theorem flushBlock_agent_noStar (st : RobotsState) (ags : List Str)
    (hcur : st.currentAgents = some ags) (hns : ags.contains (str "*") = false) :
    flushBlock st = { st with blockDisallowed := [], blockDelay := none } := by
  unfold flushBlock
  rw [hcur]
  have hns' : str "*" ∉ ags := by simpa using hns
  simp [hns']

theorem flushBlock_commit (st : RobotsState) (ags : List Str)
    (hcur : st.currentAgents = some ags) (hne : ags ≠ [])
    (hstar : ags.contains (str "*") = true) (hfs : st.foundStar = false) :
    flushBlock st =
      ⟨st.blockDisallowed, st.blockDelay.getD st.crawl_delay, st.currentAgents,
        [], none, true⟩ := by
  unfold flushBlock
  rw [hcur]
  dsimp only
  rw [hstar, hfs]
  cases hbd : st.blockDelay with
  | none => simp [hne, hcur, hbd]
  | some d => simp [hne, hcur, hbd]

def agentsOk (st : RobotsState) : Prop :=
  st.currentAgents = none ∨ ∃ t, st.currentAgents = some [t] ∧ t ≠ str "*"

theorem robotsLine_preserves_found (st : RobotsState) (l : Str)
    (h : st.foundStar = true) :
    (robotsLine st l).disallowed = st.disallowed ∧
    (robotsLine st l).crawl_delay = st.crawl_delay ∧
    (robotsLine st l).foundStar = true := by
  by_cases hua : isUA l = true
  · rw [robotsLine_ua st l hua, flushBlock_found st h]
    exact ⟨rfl, rfl, h⟩
  · cases hcur : st.currentAgents with
    | none =>
      rw [robotsLine_skip st l hcur (Bool.eq_false_iff.mpr hua)]
      exact ⟨rfl, rfl, h⟩
    | some ags =>
      rw [robotsLine_directive st l ags hcur (Bool.eq_false_iff.mpr hua)]
      exact ⟨rfl, rfl, h⟩

theorem foldl_preserves_found (ls : List Str) :
    ∀ st : RobotsState, st.foundStar = true →
      (ls.foldl robotsLine st).disallowed = st.disallowed ∧
      (ls.foldl robotsLine st).crawl_delay = st.crawl_delay ∧
      (ls.foldl robotsLine st).foundStar = true := by
  induction ls with
  | nil => exact fun st h => ⟨rfl, rfl, h⟩
  | cons l ls ih =>
    intro st h
    obtain ⟨h1, h2, h3⟩ := robotsLine_preserves_found st l h
    obtain ⟨g1, g2, g3⟩ := ih (robotsLine st l) h3
    exact ⟨g1.trans h1, g2.trans h2, g3⟩

theorem robotsA_step (st : RobotsState) (l : Str) (hl : isStarUA l = false)
    (h1 : st.disallowed = []) (h2 : st.crawl_delay = 0) (h3 : st.foundStar = false)
    (h4 : agentsOk st) :
    (robotsLine st l).disallowed = [] ∧ (robotsLine st l).crawl_delay = 0 ∧
      (robotsLine st l).foundStar = false ∧ agentsOk (robotsLine st l) := by
  by_cases hua : isUA l = true
  · have htok : uaToken l ≠ str "*" := by
      intro habs
      unfold isStarUA at hl
      rw [hua, habs] at hl
      simp at hl
    have hflush : flushBlock st = { st with blockDisallowed := [], blockDelay := none } := by
      rcases h4 with hnone | ⟨t, hsome, ht⟩
      · exact flushBlock_none st hnone
      · exact flushBlock_agent_noStar st [t] hsome (by simp [ht, eq_comm])
    rw [robotsLine_ua st l hua, hflush]
    exact ⟨h1, h2, h3, Or.inr ⟨uaToken l, rfl, htok⟩⟩
  · have hua' : isUA l = false := Bool.eq_false_iff.mpr hua
    rcases h4 with hnone | ⟨t, hsome, ht⟩
    · rw [robotsLine_skip st l hnone hua']
      exact ⟨h1, h2, h3, Or.inl hnone⟩
    · rw [robotsLine_directive st l [t] hsome hua']
      exact ⟨h1, h2, h3, Or.inr ⟨t, hsome, ht⟩⟩

theorem robotsA_fold (A : List Str) :
    ∀ st : RobotsState, (∀ l ∈ A, isStarUA l = false) →
      st.disallowed = [] → st.crawl_delay = 0 → st.foundStar = false → agentsOk st →
      (A.foldl robotsLine st).disallowed = [] ∧
        (A.foldl robotsLine st).crawl_delay = 0 ∧
        (A.foldl robotsLine st).foundStar = false ∧
        agentsOk (A.foldl robotsLine st) := by
  induction A with
  | nil => exact fun st _ h1 h2 h3 h4 => ⟨h1, h2, h3, h4⟩
  | cons l A ih =>
    intro st hA h1 h2 h3 h4
    obtain ⟨g1, g2, g3, g4⟩ :=
      robotsA_step st l (hA l (List.mem_cons_self l A)) h1 h2 h3 h4
    exact ih (robotsLine st l) (fun x hx => hA x (List.mem_cons_of_mem _ hx)) g1 g2 g3 g4

theorem robotsB_fold (B : List Str) :
    ∀ (st : RobotsState) (ags : List Str), st.currentAgents = some ags →
      (∀ l ∈ B, isUA l = false) →
      B.foldl robotsLine st =
        { st with
          blockDisallowed := st.blockDisallowed ++ blockDisallows B,
          blockDelay := overrideOpt st.blockDelay (blockDelayOf B) } := by
  induction B with
  | nil =>
    intro st ags hcur hB
    simp [blockDisallows, blockDelayOf, overrideOpt]
  | cons l B ih =>
    intro st ags hcur hB
    rw [List.foldl_cons,
      robotsLine_directive st l ags hcur (hB l (List.mem_cons_self l B)),
      ih _ ags (by rw [← hcur]) (fun x hx => hB x (List.mem_cons_of_mem _ hx))]
    have hbd : blockDisallows (l :: B) = (lineDisallow l).toList ++ blockDisallows B := by
      unfold blockDisallows
      cases hld : lineDisallow l with
      | none => simp [List.filterMap_cons, hld]
      | some p => simp [List.filterMap_cons, hld]
    have hdel : blockDelayOf (l :: B) =
        overrideOpt (overrideOpt none (lineDelay l)) (blockDelayOf B) := by
      unfold blockDelayOf
      rw [List.foldl_cons]
      exact overrideOpt_foldl B _
    rw [hbd, hdel]
    have hov : ∀ (a b c : Option ℚ),
        overrideOpt (overrideOpt a b) c = overrideOpt a (overrideOpt (overrideOpt none b) c) := by
      intro a b c
      cases c <;> cases b <;> rfl
    rw [List.append_assoc, ← hov]

/-! ## Claim C6 -/

/-- Claim C6: only the first `User-agent: *` block is honored.  For any
robots.txt whose cleaned lines split as `A ++ [u] ++ B ++ C` with no star
user-agent line in `A`, `u` a star user-agent line, no user-agent line in
`B`, and `C` either empty or starting with a user-agent line, the parsed
policy is exactly `B`'s compiled disallow list and `B`'s crawl-delay
(0.0 when the block has none) — whatever `C` contains, including later
`*` blocks, is ignored. -/
theorem c6_first_star_block_wins (txt : Str) (A B C : List Str) (u : Str)
    (hsplit : splitlinesPy txt = A ++ u :: (B ++ C))
    (hA : ∀ l ∈ A, isStarUA l = false)
    (hu : isStarUA u = true)
    (hB : ∀ l ∈ B, isUA l = false)
    (hC : C = [] ∨ ∃ c C', C = c :: C' ∧ isUA c = true) :
    parse_robots txt = (blockDisallows B, (blockDelayOf B).getD 0) := by
  have hu' : isUA u = true ∧ decide (uaToken u = str "*") = true := by
    unfold isStarUA at hu
    rw [Bool.and_eq_true] at hu
    exact hu
  have hua : isUA u = true := hu'.1
  have htok : uaToken u = str "*" := by
    have := hu'.2
    simpa using this
  unfold parse_robots
  rw [hsplit, List.foldl_append, List.foldl_cons]
  obtain ⟨hd0, hc0, hf0, hag0⟩ :=
    robotsA_fold A initRobotsState hA rfl rfl rfl (Or.inl rfl)
  set stA := A.foldl robotsLine initRobotsState with hstA
  have hflushA : flushBlock stA = { stA with blockDisallowed := [], blockDelay := none } := by
    rcases hag0 with hnone | ⟨t, hsome, ht⟩
    · exact flushBlock_none stA hnone
    · exact flushBlock_agent_noStar stA [t] hsome (by simp [ht, eq_comm])
  rw [robotsLine_ua stA u hua, hflushA, htok, List.foldl_append]
  rw [robotsB_fold B _ [str "*"] rfl hB]
  set stB : RobotsState :=
    { disallowed := stA.disallowed, crawl_delay := stA.crawl_delay,
      currentAgents := some [str "*"],
      blockDisallowed := [] ++ blockDisallows B,
      blockDelay := overrideOpt none (blockDelayOf B),
      foundStar := stA.foundStar } with hstB
  have hBfields : stB.currentAgents = some [str "*"] ∧ stB.foundStar = false ∧
      stB.blockDisallowed = blockDisallows B ∧
      stB.blockDelay = blockDelayOf B ∧ stB.crawl_delay = 0 := by
    refine ⟨rfl, hf0, by simp, ?_, hc0⟩
    show overrideOpt none (blockDelayOf B) = blockDelayOf B
    cases blockDelayOf B <;> rfl
  obtain ⟨hcurB, hfsB, hbdB, hdelB, hcdB⟩ := hBfields
  rcases hC with rfl | ⟨c, C', rfl, hcUA⟩
  · rw [List.foldl_nil, flushBlock_commit stB [str "*"] hcurB (by simp) (by simp) hfsB]
    rw [hbdB, hdelB, hcdB]
  · rw [List.foldl_cons, robotsLine_ua stB c hcUA,
      flushBlock_commit stB [str "*"] hcurB (by simp) (by simp) hfsB]
    set stC : RobotsState :=
      { disallowed := stB.blockDisallowed,
        crawl_delay := stB.blockDelay.getD stB.crawl_delay,
        currentAgents := some [uaToken c], blockDisallowed := [],
        blockDelay := none, foundStar := true } with hstC
    obtain ⟨g1, g2, g3⟩ := foldl_preserves_found C' stC rfl
    rw [flushBlock_found _ g3]
    show ((C'.foldl robotsLine stC).disallowed, (C'.foldl robotsLine stC).crawl_delay) = _
    rw [g1, g2]
    show (stB.blockDisallowed, stB.blockDelay.getD stB.crawl_delay) = _
    rw [hbdB, hdelB, hcdB]

def c6txt : Str :=
  str "User-agent: x\nDisallow: /q\nUser-agent: *\nDisallow: /a\nCrawl-delay: 1.5\nUser-agent: *\nDisallow: /c\nCrawl-delay: 9"

def c6A : List Str := [str "User-agent: x", str "Disallow: /q"]

def c6B : List Str := [str "Disallow: /a", str "Crawl-delay: 1.5"]

def c6C : List Str :=
  [str "User-agent: *", str "Disallow: /c", str "Crawl-delay: 9"]

/-- Witness for C6: with two `*` blocks, the policy is exactly the first
block's (`/a`, delay 1.5); the later block's `/c` and delay 9 are
ignored. -/
theorem c6_witness :
    parse_robots c6txt = (blockDisallows c6B, (blockDelayOf c6B).getD 0) ∧
      parse_robots c6txt = ([str "/a"], mkRat 3 2) := by
  refine ⟨c6_first_star_block_wins c6txt c6A c6B c6C (str "User-agent: *")
    (by decide) (by decide) (by decide) (by decide) ?_, by decide⟩
  right
  exact ⟨str "User-agent: *", [str "Disallow: /c", str "Crawl-delay: 9"], rfl, by decide⟩

/-! ## Order lemmas for the section sort -/

theorem strLt_trans : ∀ a b c : Str, strLt a b = true → strLt b c = true →
    strLt a c = true := by
  intro a
  induction a with
  | nil =>
    intro b c hab hbc
    cases b with
    | nil => simp [strLt] at hab
    | cons y ys =>
      cases c with
      | nil => simp [strLt] at hbc
      | cons z zs => simp [strLt]
  | cons x xs ih =>
    intro b c hab hbc
    cases b with
    | nil => simp [strLt] at hab
    | cons y ys =>
      cases c with
      | nil => simp [strLt] at hbc
      | cons z zs =>
        simp only [strLt, Bool.or_eq_true, Bool.and_eq_true, decide_eq_true_eq] at hab hbc ⊢
        rcases hab with hab | ⟨hab, hab'⟩
        · rcases hbc with hbc | ⟨hbc, hbc'⟩
          · exact Or.inl (lt_trans hab hbc)
          · exact Or.inl (hbc ▸ hab)
        · rcases hbc with hbc | ⟨hbc, hbc'⟩
          · exact Or.inl (hab ▸ hbc)
          · exact Or.inr ⟨hab.trans hbc, ih ys zs hab' hbc'⟩

theorem strLt_total : ∀ a b : Str, strLt a b = true ∨ a = b ∨ strLt b a = true := by
  intro a
  induction a with
  | nil =>
    intro b
    cases b with
    | nil => exact Or.inr (Or.inl rfl)
    | cons y ys => exact Or.inl (by simp [strLt])
  | cons x xs ih =>
    intro b
    cases b with
    | nil => exact Or.inr (Or.inr (by simp [strLt]))
    | cons y ys =>
      rcases lt_trichotomy x y with hxy | hxy | hxy
      · exact Or.inl (by simp [strLt, hxy])
      · subst hxy
        rcases ih ys with h | h | h
        · exact Or.inl (by simp [strLt, h])
        · exact Or.inr (Or.inl (by rw [h]))
        · exact Or.inr (Or.inr (by simp [strLt, h]))
      · exact Or.inr (Or.inr (by simp [strLt, hxy]))

theorem sectionKeyLe_total (m a b : Str) :
    sectionKeyLe m a b = true ∨ sectionKeyLe m b a = true := by
  unfold sectionKeyLe
  simp only [Bool.or_eq_true, Bool.and_eq_true, decide_eq_true_eq]
  rcases Nat.lt_trichotomy (if a = m then 0 else 1) (if b = m then 0 else 1) with h | h | h
  · exact Or.inl (Or.inl h)
  · rcases strLt_total (pyLower a) (pyLower b) with hs | hs | hs
    · exact Or.inl (Or.inr ⟨h, Or.inl hs⟩)
    · exact Or.inl (Or.inr ⟨h, Or.inr hs⟩)
    · exact Or.inr (Or.inr ⟨h.symm, Or.inl hs⟩)
  · exact Or.inr (Or.inl h)

theorem sectionKeyLe_trans (m a b c : Str) (hab : sectionKeyLe m a b = true)
    (hbc : sectionKeyLe m b c = true) : sectionKeyLe m a c = true := by
  unfold sectionKeyLe at hab hbc ⊢
  simp only [Bool.or_eq_true, Bool.and_eq_true, decide_eq_true_eq] at hab hbc ⊢
  rcases hab with hab | ⟨hab, hab'⟩
  · rcases hbc with hbc | ⟨hbc, hbc'⟩
    · exact Or.inl (lt_trans hab hbc)
    · exact Or.inl (hbc ▸ hab)
  · rcases hbc with hbc | ⟨hbc, hbc'⟩
    · exact Or.inl (hab ▸ hbc)
    · refine Or.inr ⟨hab.trans hbc, ?_⟩
      rcases hab' with h1 | h1
      · rcases hbc' with h2 | h2
        · exact Or.inl (strLt_trans _ _ _ h1 h2)
        · exact Or.inl (h2 ▸ h1)
      · rcases hbc' with h2 | h2
        · exact Or.inl (h1 ▸ h2)
        · exact Or.inr (h1.trans h2)

theorem sectionKeyLe_not_to_main (m y : Str) (hy : y ≠ m) :
    sectionKeyLe m y m = false := by
  unfold sectionKeyLe
  simp [hy]

theorem insertSorted_perm (le : Str → Str → Bool) (x : Str) :
    ∀ l : List Str, (insertSorted le x l).Perm (x :: l) := by
  intro l
  induction l with
  | nil => simp [insertSorted]
  | cons y ys ih =>
    rw [insertSorted]
    by_cases h : le x y = true
    · rw [if_pos h]
    · rw [if_neg h]
      exact (ih.cons y).trans (List.Perm.swap x y ys)

theorem stableSort_perm (le : Str → Str → Bool) :
    ∀ l : List Str, (stableSort le l).Perm l := by
  intro l
  induction l with
  | nil => rfl
  | cons x xs ih =>
    rw [stableSort]
    exact (insertSorted_perm le x (stableSort le xs)).trans (ih.cons x)

theorem insertSorted_pairwise (le : Str → Str → Bool)
    (htot : ∀ a b, le a b = true ∨ le b a = true)
    (htrans : ∀ a b c, le a b = true → le b c = true → le a c = true)
    (x : Str) :
    ∀ l : List Str, l.Pairwise (fun a b => le a b = true) →
      (insertSorted le x l).Pairwise (fun a b => le a b = true) := by
  intro l
  induction l with
  | nil => intro _; simp [insertSorted]
  | cons y ys ih =>
    intro hl
    rw [List.pairwise_cons] at hl
    obtain ⟨hy, hys⟩ := hl
    rw [insertSorted]
    by_cases h : le x y = true
    · rw [if_pos h]
      rw [List.pairwise_cons]
      refine ⟨?_, List.pairwise_cons.mpr ⟨hy, hys⟩⟩
      intro z hz
      rcases List.mem_cons.mp hz with rfl | hz
      · exact h
      · exact htrans x y z h (hy z hz)
    · rw [if_neg h]
      rw [List.pairwise_cons]
      refine ⟨?_, ih hys⟩
      intro z hz
      have hz' := (insertSorted_perm le x ys).mem_iff.mp hz
      rcases List.mem_cons.mp hz' with rfl | hz'
      · exact (htot z y).resolve_left h
      · exact hy z hz'

theorem stableSort_pairwise (le : Str → Str → Bool)
    (htot : ∀ a b, le a b = true ∨ le b a = true)
    (htrans : ∀ a b c, le a b = true → le b c = true → le a c = true) :
    ∀ l : List Str, (stableSort le l).Pairwise (fun a b => le a b = true) := by
  intro l
  induction l with
  | nil => simp [stableSort]
  | cons x xs ih =>
    rw [stableSort]
    exact insertSorted_pairwise le htot htrans x _ ih

theorem dedupFirst_subset (l : List Str) : ∀ s ∈ dedupFirst l, s ∈ l := by
  have haux : ∀ (l : List Str) (acc : List Str) (s : Str),
      s ∈ l.foldl (fun acc s => if acc.contains s then acc else acc ++ [s]) acc →
        s ∈ acc ∨ s ∈ l := by
    intro l
    induction l with
    | nil => intro acc s hs; exact Or.inl hs
    | cons x xs ih =>
      intro acc s hs
      rw [List.foldl_cons] at hs
      by_cases hc : acc.contains x = true
      · rw [if_pos hc] at hs
        rcases ih acc s hs with h | h
        · exact Or.inl h
        · exact Or.inr (List.mem_cons_of_mem _ h)
      · rw [if_neg hc] at hs
        rcases ih (acc ++ [x]) s hs with h | h
        · rcases List.mem_append.mp h with h | h
          · exact Or.inl h
          · simp at h
            exact Or.inr (h ▸ List.mem_cons_self x xs)
        · exact Or.inr (List.mem_cons_of_mem _ h)
  intro s hs
  rcases haux l [] s hs with h | h
  · simp at h
  · exact h

theorem orderSections_spec (so : List Str) (m : Str) :
    (∀ s ∈ orderSections so m, s ∈ so) ∧
    (so.contains (str "Optional") = true →
      ∃ pre, orderSections so m = pre ++ [str "Optional"] ∧ str "Optional" ∉ pre) ∧
    (so.contains (str "Optional") = false → str "Optional" ∉ orderSections so m) ∧
    ((orderSections so m).filter (fun s => s ≠ str "Optional")).Pairwise
      (fun a b => sectionKeyLe m a b = true) ∧
    (m ∈ so → m ≠ str "Optional" → (orderSections so m).head? = some m) := by
  unfold orderSections
  dsimp only
  set F := so.filter (fun s => s ≠ str "Optional") with hF
  set M := if F.contains m then m :: F.erase m else F with hM
  set S := stableSort (sectionKeyLe m) M with hS
  have hMF : ∀ s ∈ M, s ∈ F := by
    intro s hs
    rw [hM] at hs
    by_cases hc : F.contains m = true
    · rw [if_pos hc] at hs
      rcases List.mem_cons.mp hs with rfl | hs
      · exact List.mem_of_elem_eq_true hc
      · exact List.mem_of_mem_erase hs
    · rw [if_neg hc] at hs
      exact hs
  have hFso : ∀ s ∈ F, s ∈ so ∧ s ≠ str "Optional" := by
    intro s hs
    rw [hF] at hs
    have h := List.mem_filter.mp hs
    exact ⟨h.1, by simpa using h.2⟩
  have hSM : ∀ s ∈ S, s ∈ F := fun s hs => hMF s ((stableSort_perm _ M).mem_iff.mp hs)
  have hSopt : str "Optional" ∉ S := fun h => (hFso _ (hSM _ h)).2 rfl
  have hpair : S.Pairwise (fun a b => sectionKeyLe m a b = true) :=
    stableSort_pairwise _ (sectionKeyLe_total m) (sectionKeyLe_trans m) M
  have hfilterS : S.filter (fun s => s ≠ str "Optional") = S :=
    List.filter_eq_self.mpr (fun s hs => by simpa using (hFso _ (hSM _ hs)).2)
  refine ⟨?_, ?_, ?_, ?_, ?_⟩
  · intro s hs
    by_cases hopt : so.contains (str "Optional") = true
    · rw [if_pos hopt] at hs
      rcases List.mem_append.mp hs with h | h
      · exact (hFso _ (hSM _ h)).1
      · simp at h
        subst h
        exact List.mem_of_elem_eq_true hopt
    · rw [if_neg hopt] at hs
      exact (hFso _ (hSM _ hs)).1
  · intro hopt
    rw [if_pos hopt]
    exact ⟨S, rfl, hSopt⟩
  · intro hopt
    have hopt' : ¬ so.contains (str "Optional") = true := by
      rw [hopt]
      simp
    rw [if_neg hopt']
    exact hSopt
  · by_cases hopt : so.contains (str "Optional") = true
    · rw [if_pos hopt, List.filter_append, hfilterS]
      have h2 : [str "Optional"].filter (fun s => s ≠ str "Optional") = [] := by
        simp
      rw [h2, List.append_nil]
      exact hpair
    · rw [if_neg hopt, hfilterS]
      exact hpair
  · intro hm hmopt
    have hmF : m ∈ F := by
      rw [hF]
      exact List.mem_filter.mpr ⟨hm, by simpa using hmopt⟩
    have hc : F.contains m = true := List.elem_eq_true_of_mem hmF
    have hmM : m ∈ M := by
      rw [hM, if_pos hc]
      exact List.mem_cons_self m _
    have hmS : m ∈ S := (stableSort_perm _ M).mem_iff.mpr hmM
    cases hSc : S with
    | nil =>
      rw [hSc] at hmS
      simp at hmS
    | cons h t =>
      have hhead : h = m := by
        by_cases hhm : h = m
        · exact hhm
        · exfalso
          rw [hSc] at hmS hpair
          rcases List.mem_cons.mp hmS with rfl | hmt
          · exact hhm rfl
          · have hle := (List.pairwise_cons.mp hpair).1 m hmt
            rw [sectionKeyLe_not_to_main m h hhm] at hle
            exact Bool.false_ne_true hle
      by_cases hopt : so.contains (str "Optional") = true
      · rw [if_pos hopt, hhead]
        rfl
      · rw [if_neg hopt, hhead]
        rfl

theorem inferKey_optional (path : Str)
    (h : ∃ seg ∈ _path_segments path, OPTIONAL_SEGMENTS.contains seg = true) :
    _infer_section_key path = str "optional" := by
  obtain ⟨seg, hmem, hopt⟩ := h
  unfold _infer_section_key
  have hne : ¬ _path_segments path = [] := by
    intro h0
    rw [h0] at hmem
    simp at hmem
  rw [if_neg hne]
  cases hf : (_path_segments path).find? (fun seg => OPTIONAL_SEGMENTS.contains seg) with
  | some s => rfl
  | none =>
    exfalso
    have := List.find?_eq_none.mp hf seg hmem
    rw [hopt] at this
    exact this rfl

theorem sectionForUrl_optional (url : Str) (opts : GeneratorOptions)
    (hauto : opts.auto_sections = true)
    (h : ∃ seg ∈ _path_segments (pyLower (urlparse url []).path),
      OPTIONAL_SEGMENTS.contains seg = true) :
    _section_for_url url opts = str "Optional" := by
  unfold _section_for_url
  rw [hauto]
  dsimp only
  rw [if_pos rfl]
  have hkey : _infer_section_key
      (pyLower (if (urlparse url []).path = [] then str "/" else (urlparse url []).path)) =
      str "optional" := by
    apply inferKey_optional
    by_cases hnil : (urlparse url []).path = []
    · exfalso
      obtain ⟨seg, hmem, _⟩ := h
      rw [hnil] at hmem
      have hempty : _path_segments (pyLower ([] : Str)) = [] := by decide
      rw [hempty] at hmem
      simp at hmem
    · rw [if_neg hnil]
      exact h
  rw [hkey]
  unfold _section_key_to_title
  rw [if_neg (by decide), if_pos rfl]

/-! ## Claim C9 -/

/-- Claim C9: in automatic-sections mode (a) every page whose lower-cased
path has a segment in the optional-keyword set is classified `Optional`;
(b) in the final section order the `Optional` section is last when
present and absent otherwise, the default/main section comes first when
present, the non-Optional sections are sorted by the Python key
`(0 if main else 1, title.lower())`, and every listed section has at
least one page (empty sections are omitted). -/
theorem c9_optional_and_section_order (pages : List PageInfo)
    (opts : GeneratorOptions) (hauto : opts.auto_sections = true) :
    (∀ url, (∃ seg ∈ _path_segments (pyLower (urlparse url []).path),
        OPTIONAL_SEGMENTS.contains seg = true) →
      _section_for_url url opts = str "Optional") ∧
    (str "Optional" ∈ dedupFirst (pages.map (fun p => _section_for_url p.url opts)) →
      ∃ pre,
        orderSections (dedupFirst (pages.map (fun p => _section_for_url p.url opts)))
            opts.default_section = pre ++ [str "Optional"] ∧
          str "Optional" ∉ pre) ∧
    (str "Optional" ∉ dedupFirst (pages.map (fun p => _section_for_url p.url opts)) →
      str "Optional" ∉
        orderSections (dedupFirst (pages.map (fun p => _section_for_url p.url opts)))
          opts.default_section) ∧
    (opts.default_section ∈ dedupFirst (pages.map (fun p => _section_for_url p.url opts)) →
      opts.default_section ≠ str "Optional" →
      (orderSections (dedupFirst (pages.map (fun p => _section_for_url p.url opts)))
          opts.default_section).head? = some opts.default_section) ∧
    ((orderSections (dedupFirst (pages.map (fun p => _section_for_url p.url opts)))
        opts.default_section).filter (fun s => s ≠ str "Optional")).Pairwise
      (fun a b => sectionKeyLe opts.default_section a b = true) ∧
    (∀ s ∈ orderSections (dedupFirst (pages.map (fun p => _section_for_url p.url opts)))
        opts.default_section,
      pages.filter (fun p => _section_for_url p.url opts = s) ≠ []) := by
  obtain ⟨hsub, hoptpos, hoptneg, hpair, hhead⟩ :=
    orderSections_spec (dedupFirst (pages.map (fun p => _section_for_url p.url opts)))
      opts.default_section
  refine ⟨fun url h => sectionForUrl_optional url opts hauto h, ?_, ?_, hhead, hpair, ?_⟩
  · intro hmem
    exact hoptpos (List.elem_eq_true_of_mem hmem)
  · intro hmem
    apply hoptneg
    by_cases hcc :
        (dedupFirst (pages.map (fun p => _section_for_url p.url opts))).contains
          (str "Optional") = true
    · exact absurd (List.mem_of_elem_eq_true hcc) hmem
    · exact Bool.eq_false_iff.mpr hcc
  · intro s hs hF
    have hs1 := hsub s hs
    have hs2 := dedupFirst_subset _ s hs1
    obtain ⟨p, hp, hfp⟩ := List.mem_map.mp hs2
    have hpmem : p ∈ pages.filter (fun p => _section_for_url p.url opts = s) :=
      List.mem_filter.mpr ⟨hp, by simp [hfp]⟩
    rw [hF] at hpmem
    simp at hpmem

def c9pages : List PageInfo :=
  [⟨str "https://s.com/zeta", str "Z", []⟩,
   ⟨str "https://s.com/legal/terms", str "T", []⟩,
   ⟨str "https://s.com/alpha", str "A", []⟩,
   ⟨str "https://s.com/", str "H", []⟩]

/-- Witness for C9 on four pages discovered in the order Zeta, legal,
Alpha, root. -/
theorem c9_witness :
    _section_for_url (str "https://s.com/legal/terms") ({} : GeneratorOptions) =
        str "Optional" ∧
      (∃ pre,
        orderSections
            (dedupFirst (c9pages.map (fun p => _section_for_url p.url ({} : GeneratorOptions))))
            (str "Main") = pre ++ [str "Optional"] ∧ str "Optional" ∉ pre) ∧
      (orderSections
          (dedupFirst (c9pages.map (fun p => _section_for_url p.url ({} : GeneratorOptions))))
          (str "Main")).head? = some (str "Main") := by
  have h := c9_optional_and_section_order c9pages {} rfl
  exact ⟨h.1 (str "https://s.com/legal/terms") ⟨str "legal", by decide, by decide⟩,
    h.2.1 (by decide), h.2.2.2.1 (by decide) (by decide)⟩

/-! ## Claim C2: idempotence of `normalize_url`

The embedding below proves the amended statement by reconstructing the
second `urlsplit`/`urlunsplit` round trip over the output shape of the
first normalization pass.  The development needs exact facts about
`Char.toLower`, the takeWhile/dropWhile splitting combinators, and the
right-strip primitive. -/

/-! ## `Char.toLower` arithmetic facts -/

theorem char_le_iff (a b : Char) : a ≤ b ↔ a.toNat ≤ b.toNat := Iff.rfl

theorem char_toNat_ofNat (n : Nat) (h : n < 55296) : (Char.ofNat n).toNat = n := by
  unfold Char.ofNat
  rw [dif_pos (Or.inl h)]
  simp [Char.ofNatAux, Char.toNat, UInt32.toNat]

theorem upper_iff_toNat (c : Char) :
    isAsciiUpper c = true ↔ 65 ≤ c.toNat ∧ c.toNat ≤ 90 := by
  unfold isAsciiUpper
  rw [Bool.and_eq_true, decide_eq_true_eq, decide_eq_true_eq,
    char_le_iff, char_le_iff]
  constructor
  · rintro ⟨h1, h2⟩; exact ⟨h1, h2⟩
  · rintro ⟨h1, h2⟩; exact ⟨h1, h2⟩

theorem lower_iff_toNat (c : Char) :
    isAsciiLower c = true ↔ 97 ≤ c.toNat ∧ c.toNat ≤ 122 := by
  unfold isAsciiLower
  rw [Bool.and_eq_true, decide_eq_true_eq, decide_eq_true_eq,
    char_le_iff, char_le_iff]
  constructor
  · rintro ⟨h1, h2⟩; exact ⟨h1, h2⟩
  · rintro ⟨h1, h2⟩; exact ⟨h1, h2⟩

theorem toLower_of_upper (c : Char) (h : isAsciiUpper c = true) :
    (Char.toLower c).toNat = c.toNat + 32 := by
  obtain ⟨h1, h2⟩ := (upper_iff_toNat c).mp h
  unfold Char.toLower
  rw [if_pos ⟨h1, h2⟩]
  exact char_toNat_ofNat _ (by omega)

theorem toLower_of_not_upper (c : Char) (h : isAsciiUpper c = false) :
    Char.toLower c = c := by
  unfold Char.toLower
  rw [if_neg]
  intro hc
  rw [(upper_iff_toNat c).mpr hc] at h
  simp at h

theorem toNat_inj_char {a b : Char} (h : a = b) : a.toNat = b.toNat := by rw [h]

theorem toLower_alpha (c : Char) (h : isAsciiAlpha c = true) :
    isAsciiAlpha (Char.toLower c) = true := by
  unfold isAsciiAlpha at *
  rw [Bool.or_eq_true] at h
  rcases h with h | h
  · have := toLower_of_upper c h
    obtain ⟨h1, h2⟩ := (upper_iff_toNat c).mp h
    rw [Bool.or_eq_true]
    right
    rw [lower_iff_toNat, this]
    omega
  · have hu : isAsciiUpper c = false := by
      rcases hb : isAsciiUpper c with _ | _
      · rfl
      · obtain ⟨h1, h2⟩ := (upper_iff_toNat c).mp hb
        obtain ⟨h3, h4⟩ := (lower_iff_toNat c).mp h
        omega
    rw [toLower_of_not_upper c hu, Bool.or_eq_true]
    right; exact h

theorem toLower_lower_out (c : Char) :
    Char.toLower c = c ∨ isAsciiLower (Char.toLower c) = true := by
  rcases hb : isAsciiUpper c with _ | _
  · left; exact toLower_of_not_upper c hb
  · right
    have := toLower_of_upper c hb
    obtain ⟨h1, h2⟩ := (upper_iff_toNat c).mp hb
    rw [lower_iff_toNat, this]
    omega

theorem toLower_toLower (c : Char) :
    Char.toLower (Char.toLower c) = Char.toLower c := by
  rcases toLower_lower_out c with h | h
  · rw [h, h]
  · apply toLower_of_not_upper
    obtain ⟨h1, h2⟩ := (lower_iff_toNat _).mp h
    rcases hb : isAsciiUpper (Char.toLower c) with _ | _
    · rfl
    · obtain ⟨h3, h4⟩ := (upper_iff_toNat _).mp hb
      omega

theorem toLower_schemeChar (c : Char) (h : isSchemeChar c = true) :
    isSchemeChar (Char.toLower c) = true := by
  unfold isSchemeChar at *
  rw [Bool.or_eq_true] at h
  rcases h with h | h
  · rw [Bool.or_eq_true] at h
    rcases h with h | h
    · rw [Bool.or_eq_true] at h
      rcases h with h | h
      · unfold isAsciiAlnum at *
        rw [Bool.or_eq_true] at h
        rcases h with h | h
        · simp [toLower_alpha c h]
        · have hu : isAsciiUpper c = false := by
            rcases hb : isAsciiUpper c with _ | _
            · rfl
            · obtain ⟨h1, h2⟩ := (upper_iff_toNat c).mp hb
              have h3 : 48 ≤ c.toNat ∧ c.toNat ≤ 57 := by
                unfold isAsciiDigit at h
                rw [Bool.and_eq_true, decide_eq_true_eq, decide_eq_true_eq,
                  char_le_iff, char_le_iff] at h
                exact ⟨h.1, h.2⟩
              omega
          rw [toLower_of_not_upper c hu]
          simp [h]
      · rw [decide_eq_true_eq] at h
        subst h
        decide
    · rw [decide_eq_true_eq] at h
      subst h
      decide
  · rw [decide_eq_true_eq] at h
    subst h
    decide

theorem toLower_not_unsafe (c : Char)
    (h : (decide (c = '\t') || decide (c = '\x0d') || decide (c = '\n')) = false) :
    (decide (Char.toLower c = '\t') || decide (Char.toLower c = '\x0d') ||
      decide (Char.toLower c = '\n')) = false := by
  rcases toLower_lower_out c with hl | hl
  · rw [hl]; exact h
  · obtain ⟨h1, h2⟩ := (lower_iff_toNat _).mp hl
    simp only [Bool.or_eq_false_iff, decide_eq_false_iff_not]
    refine ⟨⟨?_, ?_⟩, ?_⟩ <;> intro he <;> rw [toNat_inj_char he] at h1 <;> simp at h1

theorem alpha_not_c0 (c : Char) (h : isAsciiAlpha c = true) :
    isC0OrSpace c = false := by
  unfold isC0OrSpace
  unfold isAsciiAlpha at h
  rw [Bool.or_eq_true] at h
  have hge : 65 ≤ c.toNat := by
    rcases h with h | h
    · exact ((upper_iff_toNat c).mp h).1
    · have := ((lower_iff_toNat c).mp h).1; omega
  rw [decide_eq_false_iff_not, char_le_iff]
  intro hle
  have : (' ' : Char).toNat = 32 := by decide
  omega

/-! ## List splitting lemmas -/

theorem takeWhile_append_cons {α} (p : α → Bool) (a : List α) (b : α) (l : List α)
    (ha : ∀ c ∈ a, p c = true) (hb : p b = false) :
    (a ++ b :: l).takeWhile p = a := by
  induction a with
  | nil => simp [List.takeWhile_cons, hb]
  | cons x xs ih =>
    have hx : p x = true := ha x (by simp)
    simp only [List.cons_append, List.takeWhile_cons, hx, if_true]
    rw [ih (fun c hc => ha c (by simp [hc]))]

theorem dropWhile_append_cons {α} (p : α → Bool) (a : List α) (b : α) (l : List α)
    (ha : ∀ c ∈ a, p c = true) (hb : p b = false) :
    (a ++ b :: l).dropWhile p = b :: l := by
  induction a with
  | nil => simp [List.dropWhile_cons, hb]
  | cons x xs ih =>
    have hx : p x = true := ha x (by simp)
    simp only [List.cons_append, List.dropWhile_cons, hx, if_true]
    exact ih (fun c hc => ha c (by simp [hc]))

theorem drop_len_succ {α} (a : List α) (b : α) (l : List α) :
    (a ++ b :: l).drop (a.length + 1) = l := by
  induction a with
  | nil => simp
  | cons x xs ih => simp [ih]

theorem dropWhile_append_of_stop {α} (p : α → Bool) (y : List α) (x : α) (xs : List α)
    (hx : p x = false) :
    (y ++ x :: xs).dropWhile p = y.dropWhile p ++ x :: xs := by
  induction y with
  | nil => simp [List.dropWhile_cons, hx]
  | cons a ys ih =>
    by_cases hp : p a
    · simp only [List.cons_append, List.dropWhile_cons, hp, if_true]
      exact ih
    · have hp' : p a = false := by simpa using hp
      simp [List.dropWhile_cons, hp']

theorem dropWhile_append_all {α} (p : α → Bool) (y z : List α)
    (hy : ∀ c ∈ y, p c = true) :
    (y ++ z).dropWhile p = z.dropWhile p := by
  induction y with
  | nil => simp
  | cons a ys ih =>
    have : p a = true := hy a (by simp)
    simp only [List.cons_append, List.dropWhile_cons, this, if_true]
    exact ih (fun c hc => hy c (by simp [hc]))

theorem mem_takeWhile {α} (p : α → Bool) (l : List α) (x : α)
    (h : x ∈ l.takeWhile p) : p x = true := by
  induction l with
  | nil => simp at h
  | cons a as ih =>
    rw [List.takeWhile_cons] at h
    by_cases hp : p a
    · rw [if_pos hp] at h
      rcases List.mem_cons.mp h with rfl | h
      · exact hp
      · exact ih h
    · rw [if_neg hp] at h
      simp at h

theorem split_first_mem (c : Char) (l : Str) (h : l.contains c = true) :
    takeBefore c l ++ c :: dropThrough c l = l ∧ ¬ c ∈ takeBefore c l := by
  unfold takeBefore dropThrough
  have hmem : c ∈ l := List.mem_of_elem_eq_true h
  have hne : l.dropWhile (· ≠ c) ≠ [] := by
    intro hnil
    rw [List.dropWhile_eq_nil_iff] at hnil
    have := hnil c hmem
    simp at this
  constructor
  · rcases hd : l.dropWhile (· ≠ c) with _ | ⟨x, xs⟩
    · exact absurd hd hne
    · have hx : (decide (x ≠ c)) = false := by
        apply dropWhile_head?_not (· ≠ c) l
        rw [hd]; rfl
      have hxc : x = c := by simpa using hx
      have hsplit := @List.takeWhile_append_dropWhile _ (fun y => decide (y ≠ c)) l
      rw [hd, hxc] at hsplit
      rw [hxc]
      simpa using hsplit
  · intro hc
    have := mem_takeWhile _ _ _ hc
    simp at this

theorem rstripSet_eq_self (cs : List Char) (l : Str)
    (h : ∀ c, l.getLast? = some c → cs.contains c = false) :
    rstripSet cs l = l := by
  unfold rstripSet
  rcases hr : l.reverse with _ | ⟨x, xs⟩
  · rw [List.reverse_eq_nil_iff] at hr
    simp [hr]
  · have hx : l.getLast? = some x := by
      rw [← List.head?_reverse, hr]; rfl
    rw [List.dropWhile_cons_of_neg (Bool.eq_false_iff.mp (h x hx)), ← hr,
      List.reverse_reverse]

theorem rstripSet_append_left (cs : List Char) (a b : Str) (x : Char)
    (hx : a.getLast? = some x) (hcx : cs.contains x = false) :
    rstripSet cs (a ++ b) = a ++ rstripSet cs b := by
  have hane : a ≠ [] := by intro hnil; rw [hnil] at hx; simp at hx
  obtain ⟨d, hd⟩ : ∃ d, a = d ++ [x] := by
    refine ⟨a.dropLast, ?_⟩
    have h1 := List.dropLast_append_getLast hane
    have h2 : a.getLast hane = x := by
      rw [List.getLast?_eq_getLast a hane] at hx
      exact Option.some.inj hx
    rw [h2] at h1
    exact h1.symm
  subst hd
  unfold rstripSet
  rw [show d ++ [x] ++ b = d ++ x :: b by simp]
  rw [show (d ++ x :: b).reverse = b.reverse ++ x :: d.reverse by simp]
  rw [dropWhile_append_of_stop _ _ _ _ (by exact hcx)]
  rw [List.reverse_append]
  simp

theorem rstripSet_append_all (cs : List Char) (a b : Str)
    (hb : ∀ c ∈ b, cs.contains c = true) :
    rstripSet cs (a ++ b) = rstripSet cs a := by
  unfold rstripSet
  rw [List.reverse_append, dropWhile_append_all _ _ _ (by
    intro c hc
    exact hb c (by simpa using hc))]

theorem take_two_shape (l : Str) (h : l.take 2 = str "//") :
    ∃ t, l = '/' :: '/' :: t := by
  rcases l with _ | ⟨a, _ | ⟨b, t⟩⟩
  · simp [str] at h
  · simp [str] at h
  · simp only [List.take, str] at h
    have ha : a = '/' := by
      have := congrArg (fun s => s.head?) h
      simpa using this
    have hb : b = '/' := by
      have := congrArg (fun s => s.tail.head?) h
      simpa using this
    exact ⟨t, by rw [ha, hb]⟩

theorem urlsplit_recon (c : Char) (cs R : Str)
    (hclean : removeUnsafe (lstripC0 (c :: (cs ++ ':' :: R))) = c :: (cs ++ ':' :: R))
    (hc : isAsciiAlpha c = true)
    (hcs : cs.all isSchemeChar = true)
    (hlow : pyLower (c :: cs) = c :: cs)
    (hhash : '#' ∈ R → False) :
    urlsplit (c :: (cs ++ ':' :: R)) [] =
      ⟨c :: cs,
       if R.take 2 = str "//" then (R.drop 2).takeWhile (fun x => !isNetlocStop x) else [],
       if (if R.take 2 = str "//" then (R.drop 2).dropWhile (fun x => !isNetlocStop x) else R).contains '?'
         then takeBefore '?' (if R.take 2 = str "//" then (R.drop 2).dropWhile (fun x => !isNetlocStop x) else R)
         else (if R.take 2 = str "//" then (R.drop 2).dropWhile (fun x => !isNetlocStop x) else R),
       if (if R.take 2 = str "//" then (R.drop 2).dropWhile (fun x => !isNetlocStop x) else R).contains '?'
         then dropThrough '?' (if R.take 2 = str "//" then (R.drop 2).dropWhile (fun x => !isNetlocStop x) else R)
         else [],
       []⟩ := by
  have hnc : (':' ∈ c :: cs) → False := by
    intro hmem
    rcases List.mem_cons.mp hmem with h | h
    · rw [← h] at hc; exact absurd hc (by decide)
    · have := List.all_eq_true.mp hcs ':' h
      exact absurd this (by decide)
  have hpre : List.takeWhile (fun x => decide (x ≠ ':')) (c :: (cs ++ ':' :: R)) = c :: cs := by
    have hsh : c :: (cs ++ ':' :: R) = (c :: cs) ++ ':' :: R := by simp
    rw [hsh]
    apply takeWhile_append_cons
    · intro y hy
      rcases hy0 : decide (y ≠ ':') with _ | _
      · simp at hy0; rw [hy0] at hy; exact absurd hy hnc
      · rfl
    · simp
  have hcol : (c :: (cs ++ ':' :: R)).contains ':' = true := by
    apply List.elem_eq_true_of_mem
    simp
  have hnoh : ∀ X : Str, (∀ x, x ∈ X → x ∈ R) → X.contains '#' = false := by
    intro X hsub
    rcases hb : X.contains '#' with _ | _
    · rfl
    · exact (hhash (hsub _ (List.mem_of_elem_eq_true hb))).elim
  have hok : (true && decide (c :: cs ≠ []) && true &&
      (List.drop 1 (c :: cs)).all isSchemeChar) = true := by
    simp [hcs]
  have hdrop : List.drop ((c :: cs).length + 1) (c :: (cs ++ ':' :: R)) = R := by
    rw [show c :: (cs ++ ':' :: R) = (c :: cs) ++ ':' :: R by simp]
    exact drop_len_succ _ _ _
  unfold urlsplit
  dsimp only
  rw [hclean, hpre, hcol]
  simp only [hc, hcs, hok, if_true, hdrop, hlow]
  set T := if List.take 2 R = str "//" then List.dropWhile (fun x => !isNetlocStop x) (List.drop 2 R) else R with hTdef
  have hTh : T.contains '#' = false := by
    apply hnoh
    intro x hx
    rw [hTdef] at hx
    split at hx
    · exact (List.drop_sublist 2 R).subset ((List.dropWhile_sublist _).subset hx)
    · exact hx
  rw [hTh]
  simp only [Bool.false_eq_true, if_false]

theorem urlunsplit_eq (S N PP Q : Str) (hS : S ≠ []) :
    urlunsplit S N PP Q [] =
      S ++ ':' ::
        ((if N ≠ [] || (S ≠ [] && usesNetloc.contains S && PP.take 2 ≠ str "//")
          then str "//" ++ N ++ (if PP ≠ [] && PP.take 1 ≠ str "/" then '/' :: PP else PP)
          else PP) ++
         (if Q ≠ [] then '?' :: Q else [])) := by
  unfold urlunsplit
  dsimp only
  rw [if_neg (by simp : ¬ (([] : Str) ≠ []))]
  rw [if_pos hS]
  by_cases hq : Q ≠ []
  · rw [if_pos hq, if_pos hq]
    simp [List.append_assoc]
  · rw [if_neg hq, if_neg hq]
    simp

theorem pyLower_idem (s : Str) : pyLower (pyLower s) = pyLower s := by
  unfold pyLower
  rw [List.map_map]
  apply List.map_congr_left
  intro a _
  exact toLower_toLower a

theorem all_schemeChar_pyLower (s : Str) (h : s.all isSchemeChar = true) :
    (pyLower s).all isSchemeChar = true := by
  rw [List.all_eq_true] at *
  intro x hx
  obtain ⟨a, ha, rfl⟩ := List.mem_map.mp hx
  exact toLower_schemeChar a (h a ha)

theorem takeWhile_cons_head {α} (p : α → Bool) (l : List α) (x : α) (xs : List α)
    (h : l.takeWhile p = x :: xs) : l.head? = some x ∧ p x = true := by
  cases l with
  | nil => simp at h
  | cons a as =>
    rw [List.takeWhile_cons] at h
    by_cases hp : p a
    · rw [if_pos hp] at h
      injection h with h1 _
      subst h1
      exact ⟨rfl, hp⟩
    · rw [if_neg hp] at h
      simp at h

theorem rstripSet_subset (cs : List Char) (l : Str) :
    ∀ x ∈ rstripSet cs l, x ∈ l := by
  unfold rstripSet
  intro x hx
  rw [List.mem_reverse] at hx
  have := (List.dropWhile_sublist (fun c => cs.contains c)).subset hx
  simpa using this

theorem rstripSet_pref (cs : List Char) (l : Str) : rstripSet cs l <+: l := by
  unfold rstripSet
  have hs : l.reverse.dropWhile (fun c => cs.contains c) <:+ l.reverse :=
    List.dropWhile_suffix _
  have := List.reverse_prefix.mpr hs
  simpa using this

theorem urlsplit_scheme_shape (v : Str) :
    (urlsplit v []).scheme = [] ∨
      ∃ c cs, (urlsplit v []).scheme = c :: cs ∧ isAsciiAlpha c = true ∧
        cs.all isSchemeChar = true ∧ pyLower (c :: cs) = c :: cs ∧
        (∀ x ∈ c :: cs, (x = '\t' ∨ x = '\x0d' ∨ x = '\n') → False) := by
  unfold urlsplit
  dsimp only
  split
  · rename_i hok
    right
    rw [Bool.and_eq_true] at hok
    obtain ⟨hABC, hD⟩ := hok
    rw [Bool.and_eq_true] at hABC
    obtain ⟨hAB, hC⟩ := hABC
    rw [Bool.and_eq_true] at hAB
    obtain ⟨_, hB⟩ := hAB
    rcases hp : (removeUnsafe (lstripC0 v)).takeWhile (fun x => decide (x ≠ ':')) with _ | ⟨p, ps⟩
    · rw [hp] at hB
      simp at hB
    · obtain ⟨hhead, _⟩ := takeWhile_cons_head _ _ _ _ hp
      have halpha : isAsciiAlpha p = true := by
        rcases hw : removeUnsafe (lstripC0 v) with _ | ⟨a, as⟩
        · rw [hw] at hC
          simp at hC
        · rw [hw] at hC hhead
          simp at hhead
          rw [← hhead]
          simpa using hC
      rw [hp] at hD
      have hps : ps.all isSchemeChar = true := by simpa using hD
      refine ⟨Char.toLower p, pyLower ps, rfl, toLower_alpha p halpha,
        all_schemeChar_pyLower ps hps, ?_, ?_⟩
      · have := pyLower_idem (p :: ps)
        simpa [pyLower] using this
      · intro x hx hbad
        rcases List.mem_cons.mp hx with rfl | hx
        · have hl : isAsciiAlpha (Char.toLower p) = true := toLower_alpha p halpha
          rcases hbad with h | h | h <;> rw [h] at hl <;> exact absurd hl (by decide)
        · obtain ⟨a, ha, rfl⟩ := List.mem_map.mp hx
          have hl : isSchemeChar (Char.toLower a) = true :=
            toLower_schemeChar a (List.all_eq_true.mp hps a ha)
          rcases hbad with h | h | h <;> rw [h] at hl <;> exact absurd hl (by decide)
  · left
    rfl

theorem takeBefore_subset (c : Char) (l : Str) : ∀ x ∈ takeBefore c l, x ∈ l := by
  intro x hx
  exact (List.takeWhile_sublist _).subset hx

theorem dropThrough_subset (c : Char) (l : Str) : ∀ x ∈ dropThrough c l, x ∈ l := by
  intro x hx
  exact (List.dropWhile_sublist _).subset (List.drop_subset _ _ hx)

theorem urlsplit_fields_mem (v : Str) :
    ∀ x, (x ∈ (urlsplit v []).netloc ∨ x ∈ (urlsplit v []).path ∨
          x ∈ (urlsplit v []).query) →
      x ∈ removeUnsafe (lstripC0 v) := by
  unfold urlsplit
  dsimp only
  intro x hx
  rcases hx with hx | hx | hx <;>
    (repeat' split at hx) <;>
    (repeat
      first
      | exact hx
      | exact absurd hx (List.not_mem_nil x)
      | (replace hx := takeBefore_subset _ _ _ hx)
      | (replace hx := dropThrough_subset _ _ _ hx)
      | (replace hx := (List.takeWhile_sublist _).subset hx)
      | (replace hx := (List.dropWhile_sublist _).subset hx)
      | (replace hx := List.drop_subset _ _ hx)
      | (replace hx := List.take_subset _ _ hx))

theorem urlsplit_no_hash (v : Str) :
    ('#' ∈ (urlsplit v []).netloc → False) ∧
    ('#' ∈ (urlsplit v []).path → False) ∧
    ('#' ∈ (urlsplit v []).query → False) := by
  unfold urlsplit
  dsimp only
  refine ⟨?_, ?_, ?_⟩ <;> intro hx <;>
    (repeat' split at hx) <;>
    (repeat
      first
      | exact absurd hx (List.not_mem_nil '#')
      | exact absurd (mem_takeWhile _ _ _ hx) (by decide)
      | exact absurd (List.elem_eq_true_of_mem hx) (by assumption)
      | (replace hx := takeBefore_subset _ _ _ hx)
      | (replace hx := dropThrough_subset _ _ _ hx)
      | (replace hx := (List.takeWhile_sublist _).subset hx)
      | (replace hx := (List.dropWhile_sublist _).subset hx)
      | (replace hx := List.drop_subset _ _ hx)
      | (replace hx := List.take_subset _ _ hx))

theorem urlparse_path_params_mem (v : Str) :
    ∀ x, (x ∈ (urlparse v []).path ∨ x ∈ (urlparse v []).params) →
      x ∈ (urlsplit v []).path := by
  unfold urlparse splitparams
  dsimp only
  intro x hx
  rcases hx with hx | hx <;>
    (repeat' split at hx) <;>
    (repeat
      first
      | exact hx
      | exact absurd hx (List.not_mem_nil x)
      | (replace hx := List.drop_subset _ _ hx)
      | (replace hx := List.take_subset _ _ hx))

theorem stripDefaultPort_subset (A N : Str) :
    ∀ x ∈ stripDefaultPort A N, x ∈ N := by
  unfold stripDefaultPort
  dsimp only
  intro x hx
  repeat' split at hx
  all_goals
    first
    | exact hx
    | exact List.take_subset _ _ hx

theorem unsafe_pred_true (a : Char)
    (h : (a = '\t' ∨ a = '\x0d' ∨ a = '\n') → False) :
    (!(decide (a = '\t') || decide (a = '\x0d') || decide (a = '\n'))) = true := by
  simp only [Bool.not_eq_true', Bool.or_eq_false_iff, decide_eq_false_iff_not]
  exact ⟨⟨fun h1 => h (Or.inl h1), fun h1 => h (Or.inr (Or.inl h1))⟩,
    fun h1 => h (Or.inr (Or.inr h1))⟩

theorem slash2_append (X : Str) : str "//" ++ X = '/' :: '/' :: X := rfl

theorem normalizeJoined_shape (v : Str) :
    ∃ S R, normalizeJoined v = S ++ ':' :: R ∧
      (∃ c cs, S = c :: cs ∧ isAsciiAlpha c = true ∧ cs.all isSchemeChar = true) ∧
      pyLower S = S ∧
      removeUnsafe (lstripC0 (S ++ ':' :: R)) = S ++ ':' :: R ∧
      ('#' ∈ R → False) ∧
      (usesNetloc.contains S = true → R = [] ∨ R.take 2 = str "//") := by
  have hpp := urlparse_path_params_mem v
  have hmem := urlsplit_fields_mem v
  have hnh := urlsplit_no_hash v
  have hshape := urlsplit_scheme_shape v
  have hqs : (urlparse v []).scheme = (urlsplit v []).scheme := rfl
  have hqn : (urlparse v []).netloc = (urlsplit v []).netloc := rfl
  have hqq : (urlparse v []).query = (urlsplit v []).query := rfl
  have hS1shape :
      (∃ c cs, (if (urlparse v []).scheme = [] then str "https" else (urlparse v []).scheme) = c :: cs ∧
        isAsciiAlpha c = true ∧ cs.all isSchemeChar = true) ∧
      pyLower (if (urlparse v []).scheme = [] then str "https" else (urlparse v []).scheme) =
        (if (urlparse v []).scheme = [] then str "https" else (urlparse v []).scheme) ∧
      (∀ x ∈ (if (urlparse v []).scheme = [] then str "https" else (urlparse v []).scheme),
        (x = '\t' ∨ x = '\x0d' ∨ x = '\n') → False) := by
    split
    · exact ⟨⟨'h', str "ttps", by decide, by decide, by decide⟩, by decide, by decide⟩
    · rename_i hne
      rw [hqs] at hne
      rcases hshape with h0 | ⟨c, cs, hsc, hca, hcs, hlow, hsafe⟩
      · exact absurd h0 hne
      · rw [hqs, hsc]
        exact ⟨⟨c, cs, rfl, hca, hcs⟩, hlow, hsafe⟩
  have hwsafe : ∀ x, x ∈ removeUnsafe (lstripC0 v) → (x = '\t' ∨ x = '\x0d' ∨ x = '\n') → False := by
    intro x hx hbad
    unfold removeUnsafe at hx
    have hpred := (List.mem_filter.mp hx).2
    rcases hbad with h | h | h <;> rw [h] at hpred <;> simp at hpred
  unfold normalizeJoined urlunparse
  dsimp only
  set S1 := (if (urlparse v []).scheme = [] then str "https" else (urlparse v []).scheme) with hS1def
  set N1 := stripDefaultPort (urlparse v []).scheme (urlparse v []).netloc with hN1def
  set P1 := (if (urlparse v []).path = [] then str "/" else (urlparse v []).path) with hP1def
  set PP1 := (if (urlparse v []).params ≠ [] then P1 ++ ';' :: (urlparse v []).params else P1) with hPP1def
  have hS1ne : S1 ≠ [] := by
    obtain ⟨⟨c, cs, hcc, _, _⟩, _, _⟩ := hS1shape
    rw [hcc]
    simp
  rw [urlunsplit_eq S1 N1 PP1 (urlparse v []).query hS1ne]
  set R0 := ((if N1 ≠ [] || (S1 ≠ [] && usesNetloc.contains S1 && PP1.take 2 ≠ str "//")
       then str "//" ++ N1 ++ (if PP1 ≠ [] && PP1.take 1 ≠ str "/" then '/' :: PP1 else PP1)
       else PP1) ++ (if (urlparse v []).query ≠ [] then '?' :: (urlparse v []).query else [])) with hR0def
  have hstrip : rstripSet ['/'] (S1 ++ ':' :: R0) = S1 ++ ':' :: rstripSet ['/'] R0 := by
    rw [show S1 ++ ':' :: R0 = (S1 ++ [':']) ++ R0 by simp]
    rw [rstripSet_append_left ['/'] (S1 ++ [':']) R0 ':' (by simp) (by decide)]
    simp
  rw [hstrip, if_neg (by simp : ¬ (S1 ++ ':' :: rstripSet ['/'] R0 = []))]
  -- component-safety facts
  have hq_netloc_safe : ∀ x ∈ (urlparse v []).netloc, (x = '\t' ∨ x = '\x0d' ∨ x = '\n') → False := by
    intro x hx
    rw [hqn] at hx
    exact hwsafe x (hmem x (Or.inl hx))
  have hq_path_safe : ∀ x, (x ∈ (urlparse v []).path ∨ x ∈ (urlparse v []).params) →
      (x = '\t' ∨ x = '\x0d' ∨ x = '\n') → False := by
    intro x hx
    exact hwsafe x (hmem x (Or.inr (Or.inl (hpp x hx))))
  have hq_query_safe : ∀ x ∈ (urlparse v []).query, (x = '\t' ∨ x = '\x0d' ∨ x = '\n') → False := by
    intro x hx
    rw [hqq] at hx
    exact hwsafe x (hmem x (Or.inr (Or.inr hx)))
  have hP1safe : ∀ x ∈ P1, (x = '\t' ∨ x = '\x0d' ∨ x = '\n') → False := by
    intro x hx
    rw [hP1def] at hx
    split at hx
    · intro hbad
      rcases hbad with h | h | h <;> rw [h] at hx <;> exact absurd hx (by decide)
    · exact hq_path_safe x (Or.inl hx)
  have hPP1safe : ∀ x ∈ PP1, (x = '\t' ∨ x = '\x0d' ∨ x = '\n') → False := by
    intro x hx
    rw [hPP1def] at hx
    split at hx
    · rcases List.mem_append.mp hx with hx | hx
      · exact hP1safe x hx
      · rcases List.mem_cons.mp hx with rfl | hx
        · intro hbad; rcases hbad with h | h | h <;> exact absurd h (by decide)
        · exact hq_path_safe x (Or.inr hx)
    · exact hP1safe x hx
  have hN1safe : ∀ x ∈ N1, (x = '\t' ∨ x = '\x0d' ∨ x = '\n') → False := by
    intro x hx
    rw [hN1def] at hx
    exact hq_netloc_safe x (stripDefaultPort_subset _ _ x hx)
  have hR0safe : ∀ x ∈ R0, (x = '\t' ∨ x = '\x0d' ∨ x = '\n') → False := by
    intro x hx
    rw [hR0def] at hx
    rcases List.mem_append.mp hx with hx | hx
    · split at hx
      · rcases List.mem_append.mp hx with hx | hx
        · rcases List.mem_append.mp hx with hx | hx
          · intro hbad
            rcases hbad with h | h | h <;> rw [h] at hx <;> exact absurd hx (by decide)
          · exact hN1safe x hx
        · split at hx
          · rcases List.mem_cons.mp hx with rfl | hx
            · intro hbad; rcases hbad with h | h | h <;> exact absurd h (by decide)
            · exact hPP1safe x hx
          · exact hPP1safe x hx
      · exact hPP1safe x hx
    · split at hx
      · rcases List.mem_cons.mp hx with rfl | hx
        · intro hbad; rcases hbad with h | h | h <;> exact absurd h (by decide)
        · exact hq_query_safe x hx
      · exact absurd hx (List.not_mem_nil x)
  have hR0hash : '#' ∈ R0 → False := by
    intro hx
    rw [hR0def] at hx
    have hP1hash : '#' ∈ P1 → False := by
      intro hx
      rw [hP1def] at hx
      split at hx
      · exact absurd hx (by decide)
      · exact hnh.2.1 (hpp '#' (Or.inl hx))
    have hPP1hash : '#' ∈ PP1 → False := by
      intro hx
      rw [hPP1def] at hx
      split at hx
      · rcases List.mem_append.mp hx with hx | hx
        · exact hP1hash hx
        · rcases List.mem_cons.mp hx with he | hx
          · exact absurd he (by decide)
          · exact hnh.2.1 (hpp '#' (Or.inr hx))
      · exact hP1hash hx
    rcases List.mem_append.mp hx with hx | hx
    · split at hx
      · rcases List.mem_append.mp hx with hx | hx
        · rcases List.mem_append.mp hx with hx | hx
          · exact absurd hx (by decide)
          · rw [hN1def] at hx
            rw [hqn] at hx
            exact hnh.1 (stripDefaultPort_subset _ _ '#' hx)
        · split at hx
          · rcases List.mem_cons.mp hx with he | hx
            · exact absurd he (by decide)
            · exact hPP1hash hx
          · exact hPP1hash hx
      · exact hPP1hash hx
    · split at hx
      · rcases List.mem_cons.mp hx with he | hx
        · exact absurd he (by decide)
        · rw [hqq] at hx
          exact hnh.2.2 hx
      · exact absurd hx (List.not_mem_nil '#')
  refine ⟨S1, rstripSet ['/'] R0, rfl, hS1shape.1, hS1shape.2.1, ?_, ?_, ?_⟩
  · -- cleanliness of the assembled URL
    obtain ⟨c0, cs0, hS1cc, hS1alpha, _⟩ := hS1shape.1
    have hlst : lstripC0 (S1 ++ ':' :: rstripSet ['/'] R0) = S1 ++ ':' :: rstripSet ['/'] R0 := by
      unfold lstripC0
      rw [hS1cc, List.cons_append, List.dropWhile_cons_of_neg]
      exact Bool.eq_false_iff.mp (alpha_not_c0 c0 hS1alpha)
    have hfil : removeUnsafe (S1 ++ ':' :: rstripSet ['/'] R0) = S1 ++ ':' :: rstripSet ['/'] R0 := by
      unfold removeUnsafe
      rw [List.filter_eq_self]
      intro a ha
      rcases List.mem_append.mp ha with ha | ha
      · exact unsafe_pred_true a (hS1shape.2.2 a ha)
      · rcases List.mem_cons.mp ha with rfl | ha
        · exact unsafe_pred_true ':' (by decide)
        · exact unsafe_pred_true a (hR0safe a (rstripSet_subset _ _ a ha))
    rw [hlst, hfil]
  · -- no '#'
    intro hh
    exact hR0hash (rstripSet_subset _ _ '#' hh)
  · -- usesNetloc forces an authority-shaped remainder
    intro hUN
    have hR0shape : ∃ rest, R0 = '/' :: '/' :: rest := by
      rw [hR0def]
      split
      · refine ⟨(N1 ++ (if PP1 ≠ [] && PP1.take 1 ≠ str "/" then '/' :: PP1 else PP1)) ++
          (if (urlparse v []).query ≠ [] then '?' :: (urlparse v []).query else []), ?_⟩
        rw [List.append_assoc (str "//") N1 _, slash2_append]
        simp
      · rename_i hcond
        have hcf : (decide (N1 ≠ []) || (decide (S1 ≠ []) && usesNetloc.contains S1 &&
            decide (PP1.take 2 ≠ str "//"))) = false := Bool.eq_false_iff.mpr hcond
        rw [Bool.or_eq_false_iff] at hcf
        obtain ⟨hN1f, hrest⟩ := hcf
        have hS1t : decide (S1 ≠ []) = true := decide_eq_true hS1ne
        have h3 : decide (PP1.take 2 ≠ str "//") = false := by
          rcases h3b : decide (PP1.take 2 ≠ str "//") with _ | _
          · rfl
          · rw [hS1t, hUN, h3b] at hrest
            simp at hrest
        have hPP2 : PP1.take 2 = str "//" := by simpa using h3
        obtain ⟨t, ht⟩ := take_two_shape PP1 hPP2
        refine ⟨t ++ (if (urlparse v []).query ≠ [] then '?' :: (urlparse v []).query else []), ?_⟩
        rw [ht]
        simp
    obtain ⟨rest, hrest⟩ := hR0shape
    have hpre := rstripSet_pref ['/'] R0
    rcases hR : rstripSet ['/'] R0 with _ | ⟨a, _ | ⟨b, r⟩⟩
    · exact Or.inl rfl
    · have hglast := rstripSet_getLast? ['/'] R0 a (by rw [hR]; rfl)
      rw [hR, hrest] at hpre
      obtain ⟨t2, ht2⟩ := hpre
      have ha2 : a = '/' := by
        have := congrArg (fun l => List.head? l) ht2
        simpa using this
      rw [ha2] at hglast
      exact absurd hglast (by decide)
    · right
      rw [hR, hrest] at hpre
      obtain ⟨t2, ht2⟩ := hpre
      have hab : a = '/' ∧ b = '/' := by
        have h1 := congrArg (fun l => List.head? l) ht2
        have h2 := congrArg (fun l => List.head? (List.tail l)) ht2
        simp at h1 h2
        exact ⟨h1, h2⟩
      rw [hab.1, hab.2]
      rfl

theorem contains_slash_false (c : Char) (h : c ≠ '/') :
    (['/'] : List Char).contains c = false := by
  rcases hb : (['/'] : List Char).contains c with _ | _
  · rfl
  · have := List.mem_of_elem_eq_true hb
    simp at this
    exact absurd this h

theorem rstrip_noop_from (l : Str) (h : l.getLast? ≠ some '/') :
    rstripSet ['/'] l = l :=
  rstripSet_eq_self _ _ (fun c hc => by
    rcases hcc : decide (c = '/') with _ | _
    · exact contains_slash_false c (of_decide_eq_false hcc)
    · have hce : c = '/' := of_decide_eq_true hcc
      rw [hce] at hc
      exact absurd hc h)

theorem ends_questionmark (S X : Str) :
    (S ++ ':' :: (X ++ ['?'])).getLast? = some '?' := by
  rw [show S ++ ':' :: (X ++ ['?']) = (S ++ ':' :: X) ++ ['?'] by simp]
  exact List.getLast?_concat _

theorem normalizeJoined_fix (v : Str)
    (h1 : stripDefaultPort (urlparse (normalizeJoined v) []).scheme
            (urlparse (normalizeJoined v) []).netloc = (urlparse (normalizeJoined v) []).netloc)
    (h2 : (normalizeJoined v).getLast? ≠ some '?')
    (h3 : (if (urlparse (normalizeJoined v) []).params = []
           then (urlparse (normalizeJoined v) []).path
           else (urlparse (normalizeJoined v) []).path ++
                ';' :: (urlparse (normalizeJoined v) []).params)
          = (urlsplit (normalizeJoined v) []).path)
    (h4 : (urlparse (normalizeJoined v) []).path = [] →
          (urlparse (normalizeJoined v) []).params = [] ∧
          (urlparse (normalizeJoined v) []).query = [])
    (h5 : ¬ ((urlparse (normalizeJoined v) []).netloc = [] ∧
            ((normalizeJoined v).drop ((urlparse (normalizeJoined v) []).scheme.length + 1)).take 2
              = str "//")) :
    normalizeJoined (normalizeJoined v) = normalizeJoined v := by
  have hnl0 := normalizeJoined_getLast?_ne_slash v
  obtain ⟨S, R, hn, ⟨c, cs, hScc, hca, hcs⟩, hlow, hclean, hhash, hF6⟩ := normalizeJoined_shape v
  rw [hn] at h1 h2 h3 h4 h5 hnl0 ⊢
  have hSne : S ≠ [] := by rw [hScc]; simp
  have hSR : S ++ ':' :: R = c :: (cs ++ ':' :: R) := by rw [hScc]; rfl
  have hlow' : pyLower (c :: cs) = c :: cs := by rw [← hScc]; exact hlow
  have hclean' : removeUnsafe (lstripC0 (c :: (cs ++ ':' :: R))) = c :: (cs ++ ':' :: R) := by
    rw [← hSR]; exact hclean
  have hsr := urlsplit_recon c cs R hclean' hca hcs hlow' hhash
  rw [← hSR, ← hScc] at hsr
  set NL := (if R.take 2 = str "//" then (R.drop 2).takeWhile (fun x => !isNetlocStop x) else []) with hNLdef
  set T := (if R.take 2 = str "//" then (R.drop 2).dropWhile (fun x => !isNetlocStop x) else R) with hTdef
  set pp := (if T.contains '?' then takeBefore '?' T else T) with hppdef
  set qq := (if T.contains '?' then dropThrough '?' T else []) with hqqdef
  have hqs : (urlparse (S ++ ':' :: R) []).scheme = S := by
    have hd : (urlparse (S ++ ':' :: R) []).scheme = (urlsplit (S ++ ':' :: R) []).scheme := rfl
    rw [hd, hsr]
  have hqn : (urlparse (S ++ ':' :: R) []).netloc = NL := by
    have hd : (urlparse (S ++ ':' :: R) []).netloc = (urlsplit (S ++ ':' :: R) []).netloc := rfl
    rw [hd, hsr]
  have hqq2 : (urlparse (S ++ ':' :: R) []).query = qq := by
    have hd : (urlparse (S ++ ':' :: R) []).query = (urlsplit (S ++ ':' :: R) []).query := rfl
    rw [hd, hsr]
  have hsp_path : (urlsplit (S ++ ':' :: R) []).path = pp := by rw [hsr]
  have hdropR : (S ++ ':' :: R).drop (S.length + 1) = R := drop_len_succ S ':' R
  rw [hqs, hqn, hdropR] at h5
  rw [hsp_path] at h3
  unfold normalizeJoined urlunparse
  dsimp only
  rw [h1, hqn, hqs, hqq2, if_neg hSne]
  set PP2 := (if (urlparse (S ++ ':' :: R) []).params ≠ [] then
      (if (urlparse (S ++ ':' :: R) []).path = [] then str "/"
       else (urlparse (S ++ ':' :: R) []).path) ++
        ';' :: (urlparse (S ++ ':' :: R) []).params
    else if (urlparse (S ++ ':' :: R) []).path = [] then str "/"
         else (urlparse (S ++ ':' :: R) []).path) with hPP2def
  have hRsplit : R.take 2 = str "//" → R = '/' :: '/' :: (NL ++ T) := by
    intro hR2
    obtain ⟨r2, hr2⟩ := take_two_shape R hR2
    have hdrop2 : R.drop 2 = r2 := by rw [hr2]; rfl
    rw [hNLdef, hTdef, if_pos hR2, if_pos hR2, hdrop2, List.takeWhile_append_dropWhile]
    exact hr2
  have hTR : R.take 2 ≠ str "//" → T = R := fun hR2 => by rw [hTdef, if_neg hR2]
  have hTends : ∀ X : Str, T = X ++ ['?'] → False := by
    intro X hX
    apply h2
    by_cases hR2 : R.take 2 = str "//"
    · rw [hRsplit hR2, hX]
      rw [show S ++ ':' :: ('/' :: '/' :: (NL ++ (X ++ ['?']))) =
          S ++ ':' :: (('/' :: '/' :: (NL ++ X)) ++ ['?']) by simp]
      exact ends_questionmark _ _
    · rw [show R = X ++ ['?'] by rw [← hTR hR2]; exact hX]
      exact ends_questionmark _ _
  by_cases hpath : (urlparse (S ++ ':' :: R) []).path = []
  · -- empty parsed path: the unparse re-emits only slashes after the origin
    obtain ⟨hparams, hquery⟩ := h4 hpath
    have hqqnil : qq = [] := by rw [← hqq2]; exact hquery
    have hppnil : pp = [] := by rw [← h3, hparams, hpath]; simp
    have hPP2slash : PP2 = str "/" := by
      rw [hPP2def, hparams, hpath]
      simp
    have hT0 : T = [] := by
      by_cases hTq : T.contains '?' = true
      · exfalso
        have htb : takeBefore '?' T = [] := by
          have := hppnil
          rw [hppdef, if_pos hTq] at this
          exact this
        have hdt : dropThrough '?' T = [] := by
          have := hqqnil
          rw [hqqdef, if_pos hTq] at this
          exact this
        have hsp := (split_first_mem '?' T hTq).1
        rw [htb, hdt] at hsp
        exact hTends [] (by rw [← hsp])
      · have := hppnil
        rw [hppdef, if_neg hTq] at this
        exact this
    rw [hPP2slash, hqqnil]
    by_cases hR2 : R.take 2 = str "//"
    · have hNLne : NL ≠ [] := fun hnl => h5 ⟨hnl, hR2⟩
      have hRform : R = '/' :: '/' :: NL := by
        have := hRsplit hR2
        rw [hT0] at this
        simpa using this
      rw [urlunsplit_eq S NL (str "/") [] hSne]
      have hcond : (decide (NL ≠ []) || (decide (S ≠ []) && usesNetloc.contains S &&
          decide (List.take 2 (str "/") ≠ str "//"))) = true := by
        rw [decide_eq_true hNLne]
        simp
      rw [if_pos hcond]
      rw [if_neg (by decide :
        ¬ ((decide ((str "/" : Str) ≠ []) && decide (List.take 1 (str "/") ≠ str "/")) = true))]
      rw [if_neg (by simp : ¬ (([] : Str) ≠ []))]
      have hBIG : S ++ ':' :: ((str "//" ++ NL ++ str "/") ++ ([] : Str)) =
          (S ++ ':' :: R) ++ str "/" := by
        rw [hRform]
        rw [List.append_nil, List.append_assoc, slash2_append]
        simp
      rw [hBIG]
      rw [rstripSet_append_all ['/'] (S ++ ':' :: R) (str "/") (by decide),
        rstrip_noop_from _ hnl0, if_neg (by simp)]
    · have hR0 : R = [] := by rw [← hTR hR2]; exact hT0
      have hNLnil : NL = [] := by rw [hNLdef, if_neg hR2]
      rw [urlunsplit_eq S NL (str "/") [] hSne]
      rcases hUN : usesNetloc.contains S with _ | _
      · have hcond : (decide (NL ≠ []) || (decide (S ≠ []) && false &&
            decide (List.take 2 (str "/") ≠ str "//"))) = false := by
          rw [hNLnil]
          simp
        rw [hcond]
        simp only [Bool.false_eq_true, if_false]
        rw [if_neg (by simp : ¬ (([] : Str) ≠ []))]
        have hBIG : S ++ ':' :: ((str "/" : Str) ++ ([] : Str)) = (S ++ ':' :: R) ++ str "/" := by
          rw [hR0]
          simp
        rw [hBIG]
        rw [rstripSet_append_all ['/'] (S ++ ':' :: R) (str "/") (by decide),
          rstrip_noop_from _ hnl0, if_neg (by simp)]
      · have hcond : (decide (NL ≠ []) || (decide (S ≠ []) && true &&
            decide (List.take 2 (str "/") ≠ str "//"))) = true := by
          rw [hNLnil, decide_eq_true hSne]
          decide
        rw [if_pos hcond]
        rw [if_neg (by decide :
          ¬ ((decide ((str "/" : Str) ≠ []) && decide (List.take 1 (str "/") ≠ str "/")) = true))]
        rw [if_neg (by simp : ¬ (([] : Str) ≠ []))]
        have hBIG : S ++ ':' :: ((str "//" ++ NL ++ str "/") ++ ([] : Str)) =
            (S ++ ':' :: R) ++ str "///" := by
          rw [hNLnil, hR0]
          simp
          decide
        rw [hBIG]
        rw [rstripSet_append_all ['/'] (S ++ ':' :: R) (str "///") (by decide),
          rstrip_noop_from _ hnl0, if_neg (by simp)]
  · -- nonempty parsed path: the unparse reproduces the URL verbatim
    have hppform : PP2 = pp := by
      rw [hPP2def]
      by_cases hparams : (urlparse (S ++ ':' :: R) []).params = []
      · rw [if_neg (not_not_intro hparams), if_neg hpath, ← h3, if_pos hparams]
      · rw [if_pos hparams, if_neg hpath, ← h3, if_neg hparams]
    have hppne : pp ≠ [] := by
      rw [← h3]
      by_cases hparams : (urlparse (S ++ ':' :: R) []).params = []
      · rw [if_pos hparams]; exact hpath
      · rw [if_neg hparams]
        intro hcon
        simp at hcon
    rw [hppform]
    have hTne : T ≠ [] := by
      intro hT0
      apply hppne
      rw [hppdef, hT0]
      split <;> rfl
    by_cases hR2 : R.take 2 = str "//"
    · have hNLne : NL ≠ [] := fun hnl => h5 ⟨hnl, hR2⟩
      have hR_split := hRsplit hR2
      obtain ⟨t0, ts, hTc⟩ : ∃ t0 ts, T = t0 :: ts := by
        rcases hTl : T with _ | ⟨a, b⟩
        · exact absurd hTl hTne
        · exact ⟨a, b, rfl⟩
      have ht0stop : isNetlocStop t0 = true := by
        have hdw : T = List.dropWhile (fun x => !isNetlocStop x) (List.drop 2 R) := by
          rw [hTdef, if_pos hR2]
        have := dropWhile_head?_not (fun x => !isNetlocStop x) (R.drop 2) t0
          (by rw [← hdw, hTc]; rfl)
        simpa using this
      have ht0ne_hash : t0 ≠ '#' := by
        intro h
        apply hhash
        rw [hR_split, hTc, h]
        simp
      have ht0cases : t0 = '/' ∨ t0 = '?' := by
        unfold isNetlocStop at ht0stop
        simp only [Bool.or_eq_true, decide_eq_true_eq] at ht0stop
        rcases ht0stop with (h | h) | h
        · exact Or.inl h
        · exact Or.inr h
        · exact absurd h ht0ne_hash
      have hcond : (decide (NL ≠ []) || (decide (S ≠ []) && usesNetloc.contains S &&
          decide (List.take 2 pp ≠ str "//"))) = true := by
        rw [decide_eq_true hNLne]
        simp
      by_cases hTq : T.contains '?' = true
      · have hppq : pp = takeBefore '?' T := by rw [hppdef, if_pos hTq]
        have hqqq : qq = dropThrough '?' T := by rw [hqqdef, if_pos hTq]
        have hTfull : T = pp ++ '?' :: qq := by
          rw [hppq, hqqq]
          exact ((split_first_mem '?' T hTq).1).symm
        have ht0slash : t0 = '/' := by
          rcases ht0cases with h | h
          · exact h
          · exfalso
            apply hppne
            rw [hppq, hTc, h]
            unfold takeBefore
            rw [List.takeWhile_cons]
            simp
        obtain ⟨pls, hppc⟩ : ∃ pls, pp = '/' :: pls := by
          refine ⟨List.takeWhile (fun x => decide (x ≠ '?')) ts, ?_⟩
          rw [hppq, hTc, ht0slash]
          unfold takeBefore
          rw [List.takeWhile_cons]
          simp
        rw [urlunsplit_eq S NL pp qq hSne, if_pos hcond]
        have hppins : (decide (pp ≠ []) && decide (List.take 1 pp ≠ str "/")) = false := by
          rw [hppc, show List.take 1 ('/' :: pls) = ['/'] from rfl,
            show (decide ((['/'] : Str) ≠ str "/")) = false by decide]
          simp
        rw [hppins]
        simp only [Bool.false_eq_true, if_false]
        by_cases hqqe : qq = []
        · exact absurd (by rw [hTfull, hqqe] : T = pp ++ ['?']) (fun h => hTends pp h)
        · rw [if_pos hqqe]
          have hBIG : (str "//" ++ NL ++ pp) ++ '?' :: qq = R := by
            rw [hR_split, hTfull, List.append_assoc, List.append_assoc, slash2_append]
          rw [hBIG, rstrip_noop_from _ hnl0, if_neg (by simp)]
      · have hppT : pp = T := by rw [hppdef, if_neg hTq]
        have hqqe : qq = [] := by rw [hqqdef, if_neg hTq]
        have ht0slash : t0 = '/' := by
          rcases ht0cases with h | h
          · exact h
          · exfalso
            apply hTq
            rw [hTc, h]
            exact List.elem_eq_true_of_mem (by simp)
        rw [urlunsplit_eq S NL pp qq hSne, if_pos hcond]
        have hppins : (decide (pp ≠ []) && decide (List.take 1 pp ≠ str "/")) = false := by
          rw [hppT, hTc, ht0slash, show List.take 1 ('/' :: ts) = ['/'] from rfl,
            show (decide ((['/'] : Str) ≠ str "/")) = false by decide]
          simp
        rw [hppins]
        simp only [Bool.false_eq_true, if_false]
        rw [if_neg (not_not_intro hqqe)]
        have hBIG : S ++ ':' :: ((str "//" ++ NL ++ pp) ++ ([] : Str)) = S ++ ':' :: R := by
          rw [List.append_nil, hR_split, hppT, List.append_assoc, slash2_append]
        rw [hBIG, rstrip_noop_from _ hnl0, if_neg (by simp)]
    · have hTR' : T = R := hTR hR2
      have hNLnil : NL = [] := by rw [hNLdef, if_neg hR2]
      have hUNf : usesNetloc.contains S = false := by
        rcases hU : usesNetloc.contains S with _ | _
        · rfl
        · rcases hF6 hU with h | h
          · exfalso
            apply hTne
            rw [hTR', h]
          · exact absurd h hR2
      rw [urlunsplit_eq S NL pp qq hSne]
      have hcond : (decide (NL ≠ []) || (decide (S ≠ []) && usesNetloc.contains S &&
          decide (List.take 2 pp ≠ str "//"))) = false := by
        rw [hNLnil, hUNf]
        simp
      rw [hcond]
      simp only [Bool.false_eq_true, if_false]
      by_cases hTq : T.contains '?' = true
      · have hppq : pp = takeBefore '?' T := by rw [hppdef, if_pos hTq]
        have hqqq : qq = dropThrough '?' T := by rw [hqqdef, if_pos hTq]
        have hTfull : T = pp ++ '?' :: qq := by
          rw [hppq, hqqq]
          exact ((split_first_mem '?' T hTq).1).symm
        by_cases hqqe : qq = []
        · exact absurd (by rw [hTfull, hqqe] : T = pp ++ ['?']) (fun h => hTends pp h)
        · rw [if_pos hqqe]
          have hBIG : pp ++ '?' :: qq = R := by rw [← hTR', hTfull]
          rw [hBIG, rstrip_noop_from _ hnl0, if_neg (by simp)]
      · have hppT : pp = T := by rw [hppdef, if_neg hTq]
        have hqqe : qq = [] := by rw [hqqdef, if_neg hTq]
        rw [if_neg (not_not_intro hqqe)]
        have hBIG : S ++ ':' :: (pp ++ ([] : Str)) = S ++ ':' :: R := by
          rw [List.append_nil, hppT, hTR']
        rw [hBIG, rstrip_noop_from _ hnl0, if_neg (by simp)]

/-- Claim C2 is false on the code: normalization is not idempotent.  A URL
whose authority carries a doubled default port is rewritten again by the
second pass, because `normalize_url` strips one `:443` suffix per run. -/
theorem c2_counterexample :
    normalize_url (normalize_url (str "https://ex.com:443:443/a") none) none
      ≠ normalize_url (str "https://ex.com:443:443/a") none := by decide

/-- Claim C2 (amended): normalization is idempotent on every input whose
normalized form `n` avoids the re-normalization edge cases, namely when
(1) the port-stripping step is idle on the reparse of `n`, (2) `n` does not
end in a bare `?`, (3) the params split of the reparse loses nothing
(path `;` params concatenate back to the split path), (4) an empty reparsed
path comes with empty params and query, and (5) `n` does not pair an empty
authority with a remainder that starts `//` (the multi-slash collapse
class).  Every https URL with a host and a plain path satisfies the guard. -/
theorem c2_amended_idempotent_guarded (u : Str)
    (h1 : stripDefaultPort (urlparse (normalize_url u none) []).scheme
            (urlparse (normalize_url u none) []).netloc
          = (urlparse (normalize_url u none) []).netloc)
    (h2 : (normalize_url u none).getLast? ≠ some '?')
    (h3 : (if (urlparse (normalize_url u none) []).params = []
           then (urlparse (normalize_url u none) []).path
           else (urlparse (normalize_url u none) []).path ++
                ';' :: (urlparse (normalize_url u none) []).params)
          = (urlsplit (normalize_url u none) []).path)
    (h4 : (urlparse (normalize_url u none) []).path = [] →
          (urlparse (normalize_url u none) []).params = [] ∧
          (urlparse (normalize_url u none) []).query = [])
    (h5 : ¬ ((urlparse (normalize_url u none) []).netloc = [] ∧
            ((normalize_url u none).drop
              ((urlparse (normalize_url u none) []).scheme.length + 1)).take 2
              = str "//")) :
    normalize_url (normalize_url u none) none = normalize_url u none :=
  normalizeJoined_fix u h1 h2 h3 h4 h5

/-- Witness for the amended claim C2 at a concrete input satisfying every
side condition. -/
theorem c2_witness :
    normalize_url (normalize_url (str "https://Ex.com:443/a/") none) none =
      normalize_url (str "https://Ex.com:443/a/") none :=
  c2_amended_idempotent_guarded (str "https://Ex.com:443/a/")
    (by decide) (by decide) (by decide) (by decide) (by decide)
